import Mathlib

/-!
Pod environment injection (`cmd/cluster-agent/webhook/agent/agent.go`) and
log tailing positions (`pkg/logs/input/file/position.go`).

A shallow embedding of `getEnvMutator`, `mutatePod`, `mutateResponse` and
`mutatePods`, of the JSON-patch operations they emit and of the sequential
application of such operations to a container's `env` list; a shallow
embedding of `TailingModeFromString`, the method `String` of `TailingMode`
and `Position`; followed by the properties of these functions.
-/

set_option autoImplicit false

/-! ## Data model -/

namespace corev1

/-- Mirror of `corev1.ObjectFieldSelector`. -/
structure ObjectFieldSelector where
  APIVersion : String
  FieldPath : String
  deriving DecidableEq

/-- Mirror of the key selectors of `corev1.EnvVarSource` (resource field,
config-map key, secret key): a reference name and a key. -/
structure KeySelector where
  Name : String
  Key : String
  deriving DecidableEq

/-- Mirror of `corev1.EnvVarSource`. -/
structure EnvVarSource where
  FieldRef : Option ObjectFieldSelector
  ResourceFieldRef : Option KeySelector
  ConfigMapKeyRef : Option KeySelector
  SecretKeyRef : Option KeySelector
  deriving DecidableEq

/-- Mirror of `corev1.EnvVar`: the name is the reconciliation key. -/
structure EnvVar where
  Name : String
  Value : String
  ValueFrom : Option EnvVarSource
  deriving DecidableEq

/-- Mirror of `corev1.Container`, restricted to the fields the webhook reads. -/
structure Container where
  Name : String
  Image : String
  Env : List EnvVar
  deriving DecidableEq

/-- Mirror of `corev1.PodSpec`, restricted to the two container lists. -/
structure PodSpec where
  InitContainers : List Container
  Containers : List Container
  deriving DecidableEq

/-- Mirror of `corev1.Pod`. -/
structure Pod where
  Spec : PodSpec
  deriving DecidableEq

end corev1

namespace jsonpatch

/-- Modelled from the spec: the two shapes of value an `add` carries in this
program (the package `cmd/agent/common/jsonpatch` is not part of the sources
at hand): the empty array `[]interface{}{}` and a single environment entry. -/
inductive Value where
  | emptyList : Value
  | envVar : corev1.EnvVar → Value
  deriving DecidableEq

/-- Modelled from the spec: the kind of a patch operation, `add` or `remove`. -/
inductive Kind where
  | add : Kind
  | remove : Kind
  deriving DecidableEq

/-- Modelled from the spec: a patch operation `{kind, path, value: optional}`
of the package `cmd/agent/common/jsonpatch`. -/
structure Operation where
  Op : Kind
  Path : String
  Value : Option Value
  deriving DecidableEq

/-- Modelled from the spec: `jsonpatch.Patch`, an ordered sequence of
operations; the nil patch is the empty list. -/
abbrev Patch := List Operation

/-- Modelled from the spec: the constructor `jsonpatch.Add(path, value)`. -/
def Add (path : String) (value : Value) : Operation :=
  ⟨Kind.add, path, some value⟩

/-- Modelled from the spec: the constructor `jsonpatch.Remove(path)`. -/
def Remove (path : String) : Operation :=
  ⟨Kind.remove, path, none⟩

end jsonpatch

namespace metav1

/-- Mirror of `metav1.GroupVersionResource`. -/
structure GroupVersionResource where
  Group : String
  Version : String
  Resource : String
  deriving DecidableEq

/-- Mirror of `metav1.Status`, restricted to the message. -/
structure Status where
  Message : String
  deriving DecidableEq

end metav1

namespace admissionv1beta1

/-- Mirror of `admissionv1beta1.PatchType`, a string type. -/
abbrev PatchType := String

/-- The constant `admissionv1beta1.PatchTypeJSONPatch`. -/
def PatchTypeJSONPatch : PatchType := "JSONPatch"

/-- Mirror of `runtime.RawExtension`: the undecoded bytes of the object. -/
structure RawExtension where
  Raw : String
  deriving DecidableEq

/-- Mirror of `admissionv1beta1.AdmissionRequest`, restricted to the fields
the webhook reads. -/
structure AdmissionRequest where
  UID : String
  Resource : metav1.GroupVersionResource
  Object : RawExtension
  deriving DecidableEq

/-- Mirror of `admissionv1beta1.AdmissionResponse`; the byte slice `Patch`
and the pointers `Result` and `PatchType` are `none` when nil. -/
structure AdmissionResponse where
  UID : String
  Allowed : Bool
  Result : Option metav1.Status
  Patch : Option String
  PatchType : Option PatchType
  deriving DecidableEq

/-- Mirror of `admissionv1beta1.AdmissionReview`; the pointers `Request` and
`Response` are `none` when nil. -/
structure AdmissionReview where
  Request : Option AdmissionRequest
  Response : Option AdmissionResponse
  deriving DecidableEq

end admissionv1beta1

open corev1 jsonpatch admissionv1beta1

/-! ## The program -/

/-- The source's `getEnvMutator`: the fixed ordered list of required entries. -/
def getEnvMutator : List EnvVar :=
  [ ⟨"DD_AGENT_HOST", "", some ⟨some ⟨"", "status.hostIP"⟩, none, none, none⟩⟩,
    ⟨"DEV_VERSION", "dev-1", none⟩ ]

/-- The call `fmt.Sprint("/spec/", field, "/", i, "/env")`: no blank is
inserted, every integer operand being next to a string. -/
def sprintEnvPath (field : String) (i : Nat) : String :=
  "/spec/" ++ field ++ "/" ++ toString i ++ "/env"

/-- The call `fmt.Sprint("/spec/", field, "/", i, "/env/", k)`. -/
def sprintEnvIndexPath (field : String) (i k : Nat) : String :=
  "/spec/" ++ field ++ "/" ++ toString i ++ "/env/" ++ toString k

/-- The inner loop `for pos, v := range remainingEnv` up to its first hit:
the position and value of the first entry named `name`, positions counted
from `pos`. -/
def searchRemaining (name : String) : Nat → List EnvVar → Option (Nat × EnvVar)
  | _, [] => none
  | pos, v :: rest =>
    if v.Name = name then some (pos, v) else searchRemaining name (pos + 1) rest

/-- The slice expression `append(remainingEnv[:pos], remainingEnv[pos+1:]...)`. -/
def removeAt (remainingEnv : List EnvVar) (pos : Nat) : List EnvVar :=
  remainingEnv.take pos ++ remainingEnv.drop (pos + 1)

/-- One iteration of the loop labelled `injectedEnvLoop`, on the pair of the
patch built so far and the working copy `remainingEnv`. -/
def injectedEnvStep (field : String) (i envPos : Nat) (d : EnvVar)
    (st : Patch × List EnvVar) : Patch × List EnvVar :=
  match searchRemaining d.Name 0 st.2 with
  | some (pos, v) =>
    let currPos := envPos + pos
    let destPos := envPos
    let patch :=
      if currPos ≠ destPos then
        st.1 ++ [Remove (sprintEnvIndexPath field i currPos),
                 Add (sprintEnvIndexPath field i destPos) (Value.envVar v)]
      else st.1
    (patch, removeAt st.2 pos)
  | none => (st.1 ++ [Add (sprintEnvIndexPath field i envPos) (Value.envVar d)], st.2)

/-- The loop `for envPos, def := range envVariables`, started at index
`envPos` on the entries still to be placed. -/
def injectedEnvLoop (field : String) (i : Nat) :
    Nat → List EnvVar → Patch × List EnvVar → Patch × List EnvVar
  | _, [], st => st
  | envPos, d :: rest, st =>
    injectedEnvLoop field i (envPos + 1) rest (injectedEnvStep field i envPos d st)

/-- The body of `for i, container := range containers`: it extends `patch`
with the operations for one container. -/
def mutateContainer (envVariables : List EnvVar) (field : String) (i : Nat)
    (container : Container) (patch : Patch) : Patch :=
  let patch :=
    if container.Env.length = 0 then
      patch ++ [Add (sprintEnvPath field i) Value.emptyList]
    else patch
  (injectedEnvLoop field i 0 envVariables (patch, container.Env)).1

/-- The loop `for i, container := range containers`, started at index `i`. -/
def mutateContainers (envVariables : List EnvVar) (field : String) :
    Nat → List Container → Patch → Patch
  | _, [], patch => patch
  | i, container :: rest, patch =>
    mutateContainers envVariables field (i + 1) rest
      (mutateContainer envVariables field i container patch)

/-- The local `containerLists` of `mutatePod`: the two container lists it
ranges over, each with its field name. -/
def containerLists (pod : Pod) : List (String × List Container) :=
  [("initContainers", pod.Spec.InitContainers), ("containers", pod.Spec.Containers)]

/-- The source's `mutatePod`. -/
def mutatePod (pod : Pod) : Patch :=
  let envVariables := getEnvMutator
  (containerLists pod).foldl (fun patch s => mutateContainers envVariables s.1 0 s.2 patch) []


/-- The source's `toAdmissionResponse`: a response with an embedded error. -/
def toAdmissionResponse (err : String) : AdmissionResponse :=
  ⟨"", false, some ⟨err⟩, none, none⟩

/-- The call `json.Marshal(patch)` on a non-nil patch: a slice is encoded as
a JSON array, the encodings of its elements in order between brackets and
separated by commas. The encoding of one operation, fixed by the declaration
of `jsonpatch.Operation`, is the parameter `encodeOperation`; the encoding of
these values does not fail. -/
def jsonMarshal (encodeOperation : Operation → String) (patch : List Operation) : String :=
  "[" ++ ",".intercalate (patch.map encodeOperation) ++ "]"

/-- The source's `mutateResponse`; the argument is `none` for the nil patch
and `some ops` for a non-nil slice, empty or not. -/
def mutateResponse (encodeOperation : Operation → String) (patch : Option Patch) :
    AdmissionResponse :=
  match patch with
  | none => ⟨"", true, none, none, none⟩
  | some ops =>
    let bs := jsonMarshal encodeOperation ops
    let patchType := PatchTypeJSONPatch
    ⟨"", true, none, some bs, some patchType⟩

/-- The Go value `mutatePod` returns: its variable `patch` starts nil and is
only ever extended by `append`, so it is nil exactly when no operation was
emitted. -/
def returnedPatch (ops : Patch) : Option Patch :=
  if ops = [] then none else some ops

/-- The source's `mutatePods`. The decoding `json.Unmarshal(raw, &pod)` is the
parameter `unmarshalPod`; a nil `ar.Request` makes the call panic, which is
the result `none`. -/
def mutatePods (unmarshalPod : String → Except String Pod)
    (encodeOperation : Operation → String) (ar : AdmissionReview) : Option AdmissionResponse :=
  match ar.Request with
  | none => none
  | some request =>
    let podResource : metav1.GroupVersionResource := ⟨"", "v1", "pods"⟩
    if request.Resource ≠ podResource then
      some ⟨"", true, none, none, none⟩
    else
      match unmarshalPod request.Object.Raw with
      | Except.error err => some (toAdmissionResponse err)
      | Except.ok pod =>
        let patch := returnedPatch (mutatePod pod)
        let reviewResponse := mutateResponse encodeOperation patch
        some reviewResponse

/-! ## Applying a patch

The operations address the document by path; `parsePath` reads a path back
into the container list, the container index and, for an element path, the
index inside `env`. -/

/-- The segments of a path between its `/` separators. -/
def splitPath : List Char → List (List Char)
  | [] => [[]]
  | c :: cs =>
    if c = '/' then [] :: splitPath cs
    else
      match splitPath cs with
      | [] => [[c]]
      | seg :: segs => (c :: seg) :: segs

/-- The value of a decimal digit. -/
def digitValue (c : Char) : Option Nat :=
  if 48 ≤ c.toNat ∧ c.toNat ≤ 57 then some (c.toNat - 48) else none

/-- Reading of a run of decimal digits, most significant first. -/
def parseDigits : Nat → List Char → Option Nat
  | acc, [] => some acc
  | acc, c :: cs =>
    match digitValue c with
    | some d => parseDigits (10 * acc + d) cs
    | none => none

/-- An array index of a path: a non-empty run of decimal digits. -/
def parseIndex : List Char → Option Nat
  | [] => none
  | c :: cs => parseDigits 0 (c :: cs)

/-- The container list, the container index and the optional `env` index a
path of the form `/spec/<field>/<i>/env[/<k>]` addresses. -/
def parsePath (path : String) : Option (String × Nat × Option Nat) :=
  match splitPath path.data with
  | [[], spec, field, idx, env] =>
    if spec = "spec".data ∧ env = "env".data then
      (parseIndex idx).map (fun i => (String.mk field, i, none))
    else none
  | [[], spec, field, idx, env, pos] =>
    if spec = "spec".data ∧ env = "env".data then
      match parseIndex idx, parseIndex pos with
      | some i, some k => some (String.mk field, i, some k)
      | _, _ => none
    else none
  | _ => none

/-- One operation applied to an `env` list, the path already read: `add` of
the empty array at the list itself sets it to empty, `add` at index `k`
inserts before `k`, `remove` at index `k` deletes the element at `k`; an
index out of range, or any other shape, is an error. -/
def applyEnvOp (op : Operation) (target : Option Nat) (env : List EnvVar) :
    Option (List EnvVar) :=
  match op.Op, target, op.Value with
  | Kind.add, none, some Value.emptyList => some []
  | Kind.add, some k, some (Value.envVar v) =>
    if k ≤ env.length then some (env.take k ++ v :: env.drop k) else none
  | Kind.remove, some k, _ =>
    if k < env.length then some (removeAt env k) else none
  | _, _, _ => none

/-- One operation applied to the `env` list of the container at index `i` of
the list `field`; an operation addressed elsewhere is an error. -/
def applyContainerOp (field : String) (i : Nat) (env : List EnvVar) (op : Operation) :
    Option (List EnvVar) :=
  match parsePath op.Path with
  | some (f, j, target) => if f = field ∧ j = i then applyEnvOp op target env else none
  | none => none

/-- A patch applied in order to the `env` list of one container. -/
def applyContainerPatch (field : String) (i : Nat) : List EnvVar → Patch → Option (List EnvVar)
  | env, [] => some env
  | env, op :: ops =>
    match applyContainerOp field i env op with
    | some env1 => applyContainerPatch field i env1 ops
    | none => none

/-- The update of the element at index `n` of a list by a fallible function;
an index out of range is an error. -/
def updateAt {α : Type} (f : α → Option α) : Nat → List α → Option (List α)
  | _, [] => none
  | 0, x :: xs => (f x).map (fun y => y :: xs)
  | n + 1, x :: xs => (updateAt f n xs).map (fun ys => x :: ys)

/-- One operation applied to a pod: the path selects the container list, the
container and the place inside its `env`. -/
def applyOp (pod : Pod) (op : Operation) : Option Pod :=
  match parsePath op.Path with
  | some (field, i, target) =>
    let upd := fun (c : Container) =>
      (applyEnvOp op target c.Env).map (fun env => Container.mk c.Name c.Image env)
    if field = "initContainers" then
      (updateAt upd i pod.Spec.InitContainers).map (fun cs => Pod.mk ⟨cs, pod.Spec.Containers⟩)
    else if field = "containers" then
      (updateAt upd i pod.Spec.Containers).map (fun cs => Pod.mk ⟨pod.Spec.InitContainers, cs⟩)
    else none
  | none => none

/-- A patch applied to a pod, operation by operation, each against the pod
left by the previous ones. -/
def applyPatch : Pod → Patch → Option Pod
  | pod, [] => some pod
  | pod, op :: ops =>
    match applyOp pod op with
    | some pod1 => applyPatch pod1 ops
    | none => none

/-- The operations of a patch addressed to the container at index `i` of the
list `field`, in their order in the patch. -/
def opsFor (field : String) (i : Nat) (patch : Patch) : Patch :=
  patch.filter (fun op =>
    match parsePath op.Path with
    | some (f, j, _) => decide (f = field ∧ j = i)
    | none => false)

/-! ## Tailing modes and positions (`pkg/logs/input/file/position.go`) -/

namespace io

/-- The constant `io.SeekStart`: seek relative to the origin of the file. -/
def SeekStart : Int := 0

/-- The constant `io.SeekEnd`: seek relative to the end. -/
def SeekEnd : Int := 2

end io

namespace auditor

/-- The part of the interface `auditor.Registry` that `Position` calls, the
method `GetOffset`; the interface is declared outside the sources at hand. -/
structure Registry where
  GetOffset : String → String

end auditor

namespace file

/-- The source's `TailingMode`, a `uint8`: the values are the numbers below
256; no arithmetic is done on them. -/
abbrev TailingMode := Nat

/-- The tailing mode `ForceBeginning`, 0 by `iota`. -/
def ForceBeginning : TailingMode := 0

/-- The tailing mode `ForceEnd`. -/
def ForceEnd : TailingMode := 1

/-- The tailing mode `Beginning`. -/
def Beginning : TailingMode := 2

/-- The tailing mode `End`. -/
def End : TailingMode := 3

/-- The string of `ForceBeginning`. -/
def ForceBeginningStr : String := "forceBeginning"

/-- The string of `ForceEnd`. -/
def ForceEndStr : String := "forceEnd"

/-- The string of `Beginning`. -/
def BeginningStr : String := "beginning"

/-- The string of `End`. -/
def EndStr : String := "end"

/-- The source's map `tailingModeToStringRepresentations`, as the list of its
entries; the keys are distinct. -/
def tailingModeToStringRepresentations : List (TailingMode × String) :=
  [(ForceBeginning, ForceBeginningStr), (ForceEnd, ForceEndStr), (Beginning, BeginningStr),
    (End, EndStr)]

/-- The source's `TailingModeFromString`; `iteration` is the order in which
the `range` over the map yields its entries, which Go leaves unspecified. -/
def TailingModeFromString (iteration : List (TailingMode × String)) (mode : String) :
    TailingMode × Bool :=
  match iteration with
  | [] => (End, false)
  | (m, mStr) :: rest =>
    if mStr = mode then (m, true) else TailingModeFromString rest mode

/-- The source's method `String` of `TailingMode`: the map lookup, the empty
string for a key the map lacks. -/
def TailingMode.String (mode : TailingMode) : String :=
  match tailingModeToStringRepresentations.lookup mode with
  | some modeStr => modeStr
  | none => ""

/-- The source's `Position`. The call `strconv.ParseInt(value, 10, 64)` is the
parameter `ParseInt`, which returns the number read and the error, `none` for
nil; the result is the offset, the whence and the error. -/
def Position (ParseInt : String → Int × Option String) (registry : auditor.Registry)
    (identifier : String) (m : TailingMode) : Int × Int × Option String :=
  let value := registry.GetOffset identifier
  if m = ForceBeginning then (0, io.SeekStart, none)
  else if m = ForceEnd then (0, io.SeekEnd, none)
  else if value ≠ "" then
    let whence := io.SeekStart
    let (offset, err) := ParseInt value
    if err ≠ none then
      let offset := 0
      let whence := if m = End then io.SeekEnd else whence
      let whence := if m = Beginning then io.SeekStart else whence
      (offset, whence, err)
    else (offset, whence, err)
  else if m = Beginning then (0, io.SeekStart, none)
  else (0, io.SeekEnd, none)

/-- A reading of a string as a decimal `int64` in the manner of
`strconv.ParseInt(s, 10, 64)`: an optional sign, then a non-empty run of
digits; a number out of range is an error. It instantiates the parameter
`ParseInt` of `Position` in examples. -/
def parseDecimalInt64 (s : String) : Int × Option String :=
  let read := fun (negative : Bool) (digits : List Char) =>
    match parseIndex digits with
    | none => ((0 : Int), some "invalid syntax")
    | some n =>
      if negative then
        if n ≤ 2 ^ 63 then (-(n : Int), none) else (-(2 ^ 63 : Int), some "value out of range")
      else
        if n < 2 ^ 63 then ((n : Int), none) else ((2 ^ 63 - 1 : Int), some "value out of range")
  match s.data with
  | '-' :: digits => read true digits
  | '+' :: digits => read false digits
  | digits => read false digits

end file

/-! ## Specification-side notions -/

/-- The operations the body of the container loop emits for one container:
the loop body run on the empty patch. -/
def containerPatch (field : String) (i : Nat) (container : Container) : Patch :=
  mutateContainer getEnvMutator field i container []

/-- The entries the reconciliation puts in front, one for each desired entry
(the first entry of `remainingEnv` with the desired name when there is one, the
desired entry itself otherwise), paired with the entries it leaves behind. -/
def placement : List EnvVar → List EnvVar → List EnvVar × List EnvVar
  | [], remainingEnv => ([], remainingEnv)
  | d :: rest, remainingEnv =>
    match searchRemaining d.Name 0 remainingEnv with
    | some (pos, v) =>
      let r := placement rest (removeAt remainingEnv pos)
      (v :: r.1, r.2)
    | none =>
      let r := placement rest remainingEnv
      (d :: r.1, r.2)

/-- The `env` list the patch of a container leads to. -/
def reconciledEnv (env : List EnvVar) : List EnvVar :=
  (placement getEnvMutator env).1 ++ (placement getEnvMutator env).2

/-- A container with its `env` list reconciled. -/
def reconciledContainer (c : Container) : Container :=
  Container.mk c.Name c.Image (reconciledEnv c.Env)

/-- The final-position invariant of an `env` list: at each desired index it
has an entry carrying the name of the desired entry of that index. -/
def DesiredInFront (env : List EnvVar) : Prop :=
  ∀ (j : Nat) (d : EnvVar), getEnvMutator[j]? = some d →
    ∃ w, env[j]? = some w ∧ w.Name = d.Name

/-- Every operation of a patch run on `doc` applies without error and
satisfies `Q`, which is given the list left by the operations before it, the
operation just before it (`prev` for the first one), the operation itself and
the operations after it. -/
def EachStep (field : String) (i : Nat)
    (Q : List EnvVar → Option Operation → Operation → Patch → Prop) :
    Option Operation → List EnvVar → Patch → Prop
  | _, _, [] => True
  | prev, doc, op :: ops =>
    Q doc prev op ops ∧
      ∃ doc1, applyContainerOp field i doc op = some doc1 ∧
        EachStep field i Q (some op) doc1 ops

/-- What the loop started at index `base` on the desired entries `ds` and the
working list `rem` guarantees of each operation it emits: the operation
belongs to some desired entry `d` of index `j` and is either the `remove` of a
move pair (it deletes the first entry of `rem` named as `d`, which the next
operation re-inserts at `base + j`), the `add` of a move pair (it follows a
`remove` and carries that entry), or the `add` of `d` itself, no entry of
`rem` being named as `d`. -/
def StepSpec (field : String) (i base : Nat) (ds rem : List EnvVar)
    (st : List EnvVar) (prev : Option Operation) (op : Operation) (post : Patch) : Prop :=
  ∃ (j : Nat) (d : EnvVar), ds[j]? = some d ∧
    ((∃ (pos : Nat) (v : EnvVar), pos ≠ 0 ∧
        op = Remove (sprintEnvIndexPath field i (base + j + pos)) ∧
        st[base + j + pos]? = some v ∧
        rem.find? (fun x => decide (x.Name = d.Name)) = some v ∧
        post.head? = some (Add (sprintEnvIndexPath field i (base + j)) (Value.envVar v))) ∨
     (∃ (v : EnvVar) (r : Operation),
        op = Add (sprintEnvIndexPath field i (base + j)) (Value.envVar v) ∧
        rem.find? (fun x => decide (x.Name = d.Name)) = some v ∧
        prev = some r ∧ r.Op = Kind.remove ∧ base + j ≤ st.length) ∨
     (op = Add (sprintEnvIndexPath field i (base + j)) (Value.envVar d) ∧
        rem.find? (fun x => decide (x.Name = d.Name)) = none ∧
        (∀ r, prev = some r → r.Op = Kind.add) ∧ base + j ≤ st.length))

/-- The operation before position `pre.length` of a patch, `prev` if there is none. -/
def lastBefore (prev : Option Operation) (pre : Patch) : Option Operation :=
  match pre.getLast? with
  | some r => some r
  | none => prev

/-- What the body of the container loop guarantees of each operation it
emits for a container with `env` list `env`: the operation is the `add` of the
empty list, emitted first and for an empty `env` only, or one of the
operations of the loop over the desired entries. -/
def ContainerStepSpec (field : String) (i : Nat) (env : List EnvVar)
    (st : List EnvVar) (prev : Option Operation) (op : Operation) (post : Patch) : Prop :=
  (op = Add (sprintEnvPath field i) Value.emptyList ∧ env = [] ∧ prev = none ∧ st = []) ∨
    StepSpec field i 0 getEnvMutator env st prev op post

/-- The working copy `remainingEnv` at the start of iteration `envPos` of the
loop over the desired entries: the loop run on the first `envPos` of them. -/
def remainingEnvBefore (field : String) (i envPos : Nat) (env : List EnvVar) : List EnvVar :=
  (injectedEnvLoop field i 0 (getEnvMutator.take envPos) ([], env)).2

/-- The operations emitted for a container before iteration `envPos` of the
loop over the desired entries: the loop body run with the first `envPos`
desired entries only. -/
def patchBefore (field : String) (i envPos : Nat) (container : Container) : Patch :=
  mutateContainer (getEnvMutator.take envPos) field i container []

/-- The entries of an `env` list that carry desired names are its leading
entries, in desired relative order and one at most for each desired name,
and only entries with other names follow. -/
def LeadingInOrder (env : List EnvVar) : Prop :=
  ∃ lead extras, env = lead ++ extras ∧
    (lead.map EnvVar.Name).Sublist (getEnvMutator.map EnvVar.Name) ∧
    ∀ x ∈ extras, ∀ d ∈ getEnvMutator, x.Name ≠ d.Name

/-- One `add` at its index for each desired entry whose name the `env` list
lacks, in ascending index. -/
def absentAdds (field : String) (i : Nat) (env : List EnvVar) : Patch :=
  (getEnvMutator.enum.filter (fun p => decide (∀ v ∈ env, v.Name ≠ p.2.Name))).map
    (fun p => Add (sprintEnvIndexPath field i p.1) (Value.envVar p.2))

/-- A pod with one container whose `env` holds `DEV_VERSION`, an extra entry
and `DD_AGENT_HOST`, in that order, and one init-container with no `env`. -/
def samplePod : Pod :=
  ⟨⟨[⟨"init", "busybox", []⟩],
    [⟨"app", "nginx", [⟨"DEV_VERSION", "user", none⟩, ⟨"EXTRA", "1", none⟩,
      ⟨"DD_AGENT_HOST", "10.0.0.1", none⟩]⟩]⟩⟩

/-- A pod whose container has two entries named `DD_AGENT_HOST`. -/
def duplicatePod : Pod :=
  ⟨⟨[], [⟨"app", "nginx", [⟨"EXTRA", "1", none⟩, ⟨"DD_AGENT_HOST", "first", none⟩,
    ⟨"DD_AGENT_HOST", "second", none⟩]⟩]⟩⟩

/-- A pod whose container has `DEV_VERSION` in front, followed by an extra
entry, and lacks `DD_AGENT_HOST`. -/
def leadingPod : Pod :=
  ⟨⟨[], [⟨"app", "nginx", [⟨"DEV_VERSION", "user", none⟩, ⟨"EXTRA", "1", none⟩]⟩]⟩⟩
/-! ## Paths are read back as they were printed -/

theorem digitValue_digitChar (d : Nat) (h : d < 10) : digitValue (Nat.digitChar d) = some d := by
  interval_cases d <;> rfl

theorem digitChar_ne_slash (d : Nat) (h : d < 10) : Nat.digitChar d ≠ '/' := by
  interval_cases d <;> decide

theorem parseDigits_toDigitsCore (fuel : Nat) : ∀ (n : Nat) (ds : List Char), n < fuel →
    parseDigits 0 (Nat.toDigitsCore 10 fuel n ds) = parseDigits n ds := by
  induction fuel with
  | zero => intro n ds h; omega
  | succ fuel ih =>
    intro n ds h
    simp only [Nat.toDigitsCore]
    split
    · rename_i h0
      have hn : n < 10 := by omega
      rw [Nat.mod_eq_of_lt hn]
      simp [parseDigits, digitValue_digitChar n hn]
    · rw [ih (n / 10) _ (by omega)]
      simp only [parseDigits, digitValue_digitChar (n % 10) (Nat.mod_lt _ (by decide))]
      congr 1
      omega

theorem toDigitsCore_length_le (fuel : Nat) : ∀ (n : Nat) (ds : List Char),
    ds.length ≤ (Nat.toDigitsCore 10 fuel n ds).length := by
  induction fuel with
  | zero => intro n ds; simp [Nat.toDigitsCore]
  | succ fuel ih =>
    intro n ds
    simp only [Nat.toDigitsCore]
    split
    · simp
    · exact le_trans (by simp) (ih _ _)

theorem toDigits_ne_nil (n : Nat) : Nat.toDigits 10 n ≠ [] := by
  intro h
  have := toDigitsCore_length_le n (n / 10) [Nat.digitChar (n % 10)]
  unfold Nat.toDigits at h
  simp only [Nat.toDigitsCore] at h
  split at h
  · simp at h
  · rw [h] at this; simp at this

theorem toDigitsCore_no_slash (fuel : Nat) : ∀ (n : Nat) (ds : List Char),
    '/' ∉ ds → '/' ∉ Nat.toDigitsCore 10 fuel n ds := by
  induction fuel with
  | zero => intro n ds h; simpa [Nat.toDigitsCore] using h
  | succ fuel ih =>
    intro n ds h
    have hd : '/' ≠ Nat.digitChar (n % 10) :=
      fun e => digitChar_ne_slash (n % 10) (Nat.mod_lt _ (by decide)) e.symm
    simp only [Nat.toDigitsCore]
    split
    · simp [hd, h]
    · exact ih _ _ (by simp [hd, h])

theorem toDigits_no_slash (n : Nat) : '/' ∉ Nat.toDigits 10 n :=
  toDigitsCore_no_slash _ _ _ (by simp)

theorem parseIndex_toDigits (n : Nat) : parseIndex (Nat.toDigits 10 n) = some n := by
  have h1 := toDigits_ne_nil n
  have h2 : parseDigits 0 (Nat.toDigits 10 n) = some n := by
    unfold Nat.toDigits
    rw [parseDigits_toDigitsCore _ _ _ (Nat.lt_succ_self n)]
    rfl
  cases h : Nat.toDigits 10 n with
  | nil => exact absurd h h1
  | cons c cs => rw [h] at h2; simpa [parseIndex] using h2

theorem splitPath_no_slash (a : List Char) (h : '/' ∉ a) : splitPath a = [a] := by
  induction a with
  | nil => rfl
  | cons c cs ih =>
    simp only [List.mem_cons, not_or] at h
    simp [splitPath, Ne.symm h.1, ih h.2]

theorem splitPath_append (a b : List Char) (h : '/' ∉ a) :
    splitPath (a ++ '/' :: b) = a :: splitPath b := by
  induction a with
  | nil => simp [splitPath]
  | cons c cs ih =>
    simp only [List.mem_cons, not_or] at h
    simp [splitPath, Ne.symm h.1, ih h.2]

theorem toString_data (n : Nat) : (toString n).data = Nat.toDigits 10 n := rfl

theorem parsePath_sprintEnvIndexPath (field : String) (i k : Nat) (h : '/' ∉ field.data) :
    parsePath (sprintEnvIndexPath field i k) = some (field, i, some k) := by
  have e : (sprintEnvIndexPath field i k).data =
      [] ++ '/' :: (['s', 'p', 'e', 'c'] ++ '/' :: (field.data ++ '/' :: (Nat.toDigits 10 i ++
        '/' :: (['e', 'n', 'v'] ++ '/' :: Nat.toDigits 10 k)))) := by
    simp [sprintEnvIndexPath, String.data_append, toString_data]
  unfold parsePath
  rw [e, splitPath_append _ _ (by simp), splitPath_append _ _ (by decide), splitPath_append _ _ h,
    splitPath_append _ _ (toDigits_no_slash i), splitPath_append _ _ (by decide),
    splitPath_no_slash _ (toDigits_no_slash k)]
  simp [parseIndex_toDigits]

theorem parsePath_sprintEnvPath (field : String) (i : Nat) (h : '/' ∉ field.data) :
    parsePath (sprintEnvPath field i) = some (field, i, none) := by
  have e : (sprintEnvPath field i).data =
      [] ++ '/' :: (['s', 'p', 'e', 'c'] ++ '/' :: (field.data ++ '/' :: (Nat.toDigits 10 i ++
        '/' :: ['e', 'n', 'v']))) := by
    simp [sprintEnvPath, String.data_append, toString_data]
  unfold parsePath
  rw [e, splitPath_append _ _ (by simp), splitPath_append _ _ (by decide), splitPath_append _ _ h,
    splitPath_append _ _ (toDigits_no_slash i), splitPath_no_slash _ (by decide)]
  simp [parseIndex_toDigits]

/-! ## The reconciliation loop -/

theorem searchRemaining_some (name : String) : ∀ (l : List EnvVar) (p q : Nat) (v : EnvVar),
    searchRemaining name p l = some (q, v) →
    ∃ pre post, l = pre ++ v :: post ∧ q = p + pre.length ∧ v.Name = name ∧
      ∀ x ∈ pre, x.Name ≠ name := by
  intro l
  induction l with
  | nil => intro p q v h; simp [searchRemaining] at h
  | cons a l ih =>
    intro p q v h
    simp only [searchRemaining] at h
    split at h
    · rename_i hn
      simp only [Option.some.injEq, Prod.mk.injEq] at h
      obtain ⟨rfl, rfl⟩ := h
      exact ⟨[], l, rfl, rfl, hn, by simp⟩
    · rename_i hn
      obtain ⟨pre, post, rfl, rfl, hv, hpre⟩ := ih _ _ _ h
      refine ⟨a :: pre, post, rfl, by simp; omega, hv, ?_⟩
      intro x hx
      rcases List.mem_cons.mp hx with rfl | hx
      · exact hn
      · exact hpre x hx

theorem searchRemaining_none (name : String) : ∀ (l : List EnvVar) (p : Nat),
    searchRemaining name p l = none ↔ ∀ x ∈ l, x.Name ≠ name := by
  intro l
  induction l with
  | nil => intro p; simp [searchRemaining]
  | cons a l ih =>
    intro p
    simp only [searchRemaining]
    split
    · rename_i hn; simp [hn]
    · rename_i hn; simp [ih, hn]

theorem removeAt_append_cons (pre post : List EnvVar) (v : EnvVar) :
    removeAt (pre ++ v :: post) pre.length = pre ++ post := by
  simp [removeAt]

theorem removeAt_append_right (a l : List EnvVar) (k : Nat) :
    removeAt (a ++ l) (a.length + k) = a ++ removeAt l k := by
  simp [removeAt, List.take_append, List.drop_append, Nat.add_assoc]

theorem injectedEnvStep_patch (field : String) (i envPos : Nat) (d : EnvVar) (patch : Patch)
    (rem : List EnvVar) :
    injectedEnvStep field i envPos d (patch, rem) =
      (patch ++ (injectedEnvStep field i envPos d ([], rem)).1,
        (injectedEnvStep field i envPos d ([], rem)).2) := by
  unfold injectedEnvStep
  cases h : searchRemaining d.Name 0 rem with
  | none => simp
  | some r =>
    obtain ⟨pos, v⟩ := r
    by_cases hp : envPos + pos = envPos <;> simp [hp]

theorem injectedEnvLoop_patch (field : String) (i : Nat) : ∀ (ds : List EnvVar) (envPos : Nat)
    (patch : Patch) (rem : List EnvVar),
    injectedEnvLoop field i envPos ds (patch, rem) =
      (patch ++ (injectedEnvLoop field i envPos ds ([], rem)).1,
        (injectedEnvLoop field i envPos ds ([], rem)).2) := by
  intro ds
  induction ds with
  | nil => intro envPos patch rem; simp [injectedEnvLoop]
  | cons d ds ih =>
    intro envPos patch rem
    simp only [injectedEnvLoop]
    rw [injectedEnvStep_patch, ih]
    conv_rhs => rw [ih]
    simp [List.append_assoc]

theorem applyContainerPatch_append (field : String) (i : Nat) : ∀ (a b : Patch) (env : List EnvVar),
    applyContainerPatch field i env (a ++ b) =
      (applyContainerPatch field i env a).bind (fun e => applyContainerPatch field i e b) := by
  intro a
  induction a with
  | nil => intro b env; simp [applyContainerPatch]
  | cons op a ih =>
    intro b env
    simp only [List.cons_append, applyContainerPatch]
    cases applyContainerOp field i env op with
    | none => simp
    | some e => simp [ih]

theorem applyContainerOp_remove (field : String) (i k : Nat) (env : List EnvVar)
    (hf : '/' ∉ field.data) (hk : k < env.length) :
    applyContainerOp field i env (Remove (sprintEnvIndexPath field i k)) = some (removeAt env k) := by
  simp [applyContainerOp, Remove, parsePath_sprintEnvIndexPath field i k hf, applyEnvOp, hk]

theorem applyContainerOp_add (field : String) (i k : Nat) (env : List EnvVar) (v : EnvVar)
    (hf : '/' ∉ field.data) (hk : k ≤ env.length) :
    applyContainerOp field i env (Add (sprintEnvIndexPath field i k) (Value.envVar v)) =
      some (env.take k ++ v :: env.drop k) := by
  simp [applyContainerOp, jsonpatch.Add, parsePath_sprintEnvIndexPath field i k hf, applyEnvOp, hk]

theorem applyContainerOp_add_empty (field : String) (i : Nat) (env : List EnvVar)
    (hf : '/' ∉ field.data) :
    applyContainerOp field i env (Add (sprintEnvPath field i) Value.emptyList) = some [] := by
  simp [applyContainerOp, jsonpatch.Add, parsePath_sprintEnvPath field i hf, applyEnvOp]

/-- Loop invariant of `injectedEnvLoop`: with the document's `env` equal to
the entries already placed followed by `remainingEnv`, the operations the loop
emits apply without error and leave the placed entries, the newly placed
ones and the final `remainingEnv`. -/
theorem injectedEnvLoop_apply (field : String) (i : Nat) (hf : '/' ∉ field.data) :
    ∀ (ds placed rem : List EnvVar),
    applyContainerPatch field i (placed ++ rem)
        (injectedEnvLoop field i placed.length ds ([], rem)).1 =
      some (placed ++ (placement ds rem).1 ++ (placement ds rem).2) ∧
    (injectedEnvLoop field i placed.length ds ([], rem)).2 = (placement ds rem).2 := by
  intro ds
  induction ds with
  | nil => intro placed rem; simp [injectedEnvLoop, applyContainerPatch, placement]
  | cons d ds ih =>
    intro placed rem
    simp only [injectedEnvLoop]
    rw [injectedEnvLoop_patch]
    simp only [injectedEnvStep, placement]
    cases h : searchRemaining d.Name 0 rem with
    | none =>
      have ih1 := ih (placed ++ [d]) rem
      simp only [List.length_append, List.length_singleton, List.append_assoc,
        List.singleton_append] at ih1
      refine ⟨?_, ih1.2⟩
      simp only [List.nil_append]
      rw [applyContainerPatch_append]
      simp only [applyContainerPatch]
      rw [applyContainerOp_add field i _ _ _ hf (by simp)]
      simp [ih1.1]
    | some r =>
      obtain ⟨pos, v⟩ := r
      obtain ⟨pre, post, rfl, rfl, hv, hpre⟩ := searchRemaining_some _ _ _ _ _ h
      simp only [Nat.zero_add, removeAt_append_cons]
      have ih1 := ih (placed ++ [v]) (pre ++ post)
      simp only [List.length_append, List.length_singleton, List.append_assoc,
        List.singleton_append] at ih1
      refine ⟨?_, ih1.2⟩
      rw [applyContainerPatch_append]
      by_cases hp : pre.length = 0
      · have : pre = [] := List.length_eq_zero.mp hp
        subst this
        simpa [applyContainerPatch] using ih1.1
      · have hne : placed.length + pre.length ≠ placed.length := by omega
        simp only [hne, ne_eq, not_false_eq_true, if_true, List.nil_append, applyContainerPatch]
        rw [applyContainerOp_remove field i _ _ hf (by simp)]
        simp only
        rw [removeAt_append_right, removeAt_append_cons]
        rw [applyContainerOp_add field i _ _ _ hf (by simp)]
        simp only [Option.bind]
        simpa using ih1.1

/-! ## The patch of a pod, container by container -/

theorem mutateContainer_patch (ds : List EnvVar) (field : String) (i : Nat) (c : Container)
    (patch : Patch) :
    mutateContainer ds field i c patch = patch ++ mutateContainer ds field i c [] := by
  unfold mutateContainer
  by_cases h : c.Env.length = 0
  · simp only [h, if_true, List.nil_append]
    rw [injectedEnvLoop_patch]
    conv_rhs => rw [injectedEnvLoop_patch]
    simp [List.append_assoc]
  · simp only [h, if_false]
    rw [injectedEnvLoop_patch]

theorem mutateContainers_patch (ds : List EnvVar) (field : String) : ∀ (cs : List Container)
    (start : Nat) (patch : Patch),
    mutateContainers ds field start cs patch = patch ++ mutateContainers ds field start cs [] := by
  intro cs
  induction cs with
  | nil => intro start patch; simp [mutateContainers]
  | cons c cs ih =>
    intro start patch
    simp only [mutateContainers]
    rw [ih, mutateContainer_patch]
    conv_rhs => rw [ih]
    simp [List.append_assoc]

theorem mutateContainers_cons (field : String) (c : Container) (cs : List Container) (start : Nat) :
    mutateContainers getEnvMutator field start (c :: cs) [] =
      containerPatch field start c ++ mutateContainers getEnvMutator field (start + 1) cs [] := by
  simp only [mutateContainers]
  rw [mutateContainers_patch]
  rfl

theorem mutatePod_eq (pod : Pod) :
    mutatePod pod =
      mutateContainers getEnvMutator "initContainers" 0 pod.Spec.InitContainers [] ++
        mutateContainers getEnvMutator "containers" 0 pod.Spec.Containers [] := by
  simp only [mutatePod, containerLists, List.foldl]
  rw [mutateContainers_patch]

theorem containerPatch_eq (field : String) (i : Nat) (c : Container) :
    containerPatch field i c =
      (if c.Env.length = 0 then [jsonpatch.Add (sprintEnvPath field i) Value.emptyList] else []) ++
        (injectedEnvLoop field i 0 getEnvMutator ([], c.Env)).1 := by
  unfold containerPatch mutateContainer
  by_cases h : c.Env.length = 0
  · simp only [h, if_true, List.nil_append]
    rw [injectedEnvLoop_patch]
  · simp [h]

/-- The operations emitted for a container apply without error to its `env`
and leave the placed entries followed by the entries left behind. -/
theorem containerPatch_apply (field : String) (i : Nat) (c : Container) (hf : '/' ∉ field.data) :
    applyContainerPatch field i c.Env (containerPatch field i c) =
      some ((placement getEnvMutator c.Env).1 ++ (placement getEnvMutator c.Env).2) := by
  rw [containerPatch_eq, applyContainerPatch_append]
  have h := (injectedEnvLoop_apply field i hf getEnvMutator [] c.Env).1
  simp only [List.length_nil, List.nil_append] at h
  by_cases he : c.Env.length = 0
  · have : c.Env = [] := List.length_eq_zero.mp he
    simp only [he, if_true, applyContainerPatch, applyContainerOp_add_empty field i _ hf]
    rw [this] at h ⊢
    simpa using h
  · simpa [he, applyContainerPatch] using h

theorem injectedEnvStep_paths (field : String) (i envPos : Nat) (d : EnvVar) (rem : List EnvVar) :
    ∀ op ∈ (injectedEnvStep field i envPos d ([], rem)).1,
      ∃ k, op.Path = sprintEnvIndexPath field i k := by
  intro op hop
  unfold injectedEnvStep at hop
  cases h : searchRemaining d.Name 0 rem with
  | none =>
    simp only [h, List.nil_append, List.mem_singleton] at hop
    exact ⟨envPos, by rw [hop]; rfl⟩
  | some r =>
    obtain ⟨pos, v⟩ := r
    simp only [h] at hop
    by_cases hp : envPos + pos = envPos
    · simp [hp] at hop
    · simp only [ne_eq, hp, not_false_eq_true, if_true, List.nil_append, List.mem_cons,
        List.mem_singleton, List.not_mem_nil, or_false] at hop
      rcases hop with rfl | rfl
      · exact ⟨envPos + pos, rfl⟩
      · exact ⟨envPos, rfl⟩

theorem injectedEnvLoop_paths (field : String) (i : Nat) : ∀ (ds : List EnvVar) (envPos : Nat)
    (rem : List EnvVar), ∀ op ∈ (injectedEnvLoop field i envPos ds ([], rem)).1,
      ∃ k, op.Path = sprintEnvIndexPath field i k := by
  intro ds
  induction ds with
  | nil => intro envPos rem op hop; simp [injectedEnvLoop] at hop
  | cons d ds ih =>
    intro envPos rem op hop
    simp only [injectedEnvLoop] at hop
    rw [injectedEnvLoop_patch] at hop
    simp only [List.mem_append] at hop
    rcases hop with hop | hop
    · exact injectedEnvStep_paths field i envPos d rem op hop
    · exact ih _ _ op hop

theorem containerPatch_paths (field : String) (i : Nat) (c : Container) :
    ∀ op ∈ containerPatch field i c,
      op.Path = sprintEnvPath field i ∨ ∃ k, op.Path = sprintEnvIndexPath field i k := by
  intro op hop
  rw [containerPatch_eq, List.mem_append] at hop
  rcases hop with hop | hop
  · by_cases he : c.Env.length = 0
    · simp only [he, if_true, List.mem_singleton] at hop
      left; rw [hop]; rfl
    · simp [he] at hop
  · right; exact injectedEnvLoop_paths field i _ _ _ op hop

theorem containerPatch_parse (field : String) (i : Nat) (c : Container) (hf : '/' ∉ field.data) :
    ∀ op ∈ containerPatch field i c, ∃ t, parsePath op.Path = some (field, i, t) := by
  intro op hop
  rcases containerPatch_paths field i c op hop with h | ⟨k, h⟩
  · exact ⟨none, by rw [h, parsePath_sprintEnvPath field i hf]⟩
  · exact ⟨some k, by rw [h, parsePath_sprintEnvIndexPath field i k hf]⟩

theorem opsFor_append (field : String) (i : Nat) (a b : Patch) :
    opsFor field i (a ++ b) = opsFor field i a ++ opsFor field i b := by
  simp [opsFor]

theorem opsFor_containerPatch_same (field : String) (i : Nat) (c : Container)
    (hf : '/' ∉ field.data) :
    opsFor field i (containerPatch field i c) = containerPatch field i c := by
  unfold opsFor
  rw [List.filter_eq_self]
  intro op hop
  obtain ⟨t, ht⟩ := containerPatch_parse field i c hf op hop
  simp [ht]

theorem opsFor_containerPatch_other (field f : String) (i j : Nat) (c : Container)
    (hf : '/' ∉ f.data) (hne : ¬ (f = field ∧ j = i)) :
    opsFor field i (containerPatch f j c) = [] := by
  unfold opsFor
  rw [List.filter_eq_nil_iff]
  intro op hop
  obtain ⟨t, ht⟩ := containerPatch_parse f j c hf op hop
  simp [ht, hne]

theorem opsFor_mutateContainers_other (field f : String) (i : Nat) (hf : '/' ∉ f.data) :
    ∀ (cs : List Container) (start : Nat), (f = field → i < start) →
      opsFor field i (mutateContainers getEnvMutator f start cs []) = [] := by
  intro cs
  induction cs with
  | nil => intro start _; simp [mutateContainers, opsFor]
  | cons c cs ih =>
    intro start h
    rw [mutateContainers_cons, opsFor_append,
      opsFor_containerPatch_other field f i start c hf (fun e => by have := h e.1; omega),
      ih (start + 1) (fun e => by have := h e; omega)]
    rfl

theorem opsFor_mutateContainers (field : String) (hf : '/' ∉ field.data) :
    ∀ (cs : List Container) (start n : Nat) (c : Container), cs[n]? = some c →
      opsFor field (start + n) (mutateContainers getEnvMutator field start cs []) =
        containerPatch field (start + n) c := by
  intro cs
  induction cs with
  | nil => intro start n c h; simp at h
  | cons a cs ih =>
    intro start n c h
    rw [mutateContainers_cons, opsFor_append]
    cases n with
    | zero =>
      simp only [List.getElem?_cons_zero, Option.some.injEq] at h
      subst h
      rw [Nat.add_zero, opsFor_containerPatch_same field start a hf,
        opsFor_mutateContainers_other field field start hf cs (start + 1) (fun _ => by omega)]
      simp
    | succ n =>
      simp only [List.getElem?_cons_succ] at h
      rw [opsFor_containerPatch_other field field (start + (n + 1)) start a hf (by omega)]
      have := ih (start + 1) n c h
      rw [show start + 1 + n = start + (n + 1) by omega] at this
      simp [this]

theorem initContainers_no_slash : '/' ∉ "initContainers".data := by decide

theorem containers_no_slash : '/' ∉ "containers".data := by decide

theorem containerLists_no_slash (pod : Pod) (s : String × List Container)
    (hs : s ∈ containerLists pod) : '/' ∉ s.1.data := by
  simp only [containerLists, List.mem_cons, List.mem_singleton, List.not_mem_nil, or_false] at hs
  rcases hs with rfl | rfl
  · exact initContainers_no_slash
  · exact containers_no_slash

/-- The operations of `mutatePod pod` addressed to a container of the pod are
the operations the loop body emits for that container. -/
theorem opsFor_mutatePod (pod : Pod) (s : String × List Container) (hs : s ∈ containerLists pod)
    (i : Nat) (c : Container) (hc : s.2[i]? = some c) :
    opsFor s.1 i (mutatePod pod) = containerPatch s.1 i c := by
  rw [mutatePod_eq, opsFor_append]
  simp only [containerLists, List.mem_cons, List.mem_singleton, List.not_mem_nil, or_false] at hs
  rcases hs with rfl | rfl
  · have h1 := opsFor_mutateContainers "initContainers" initContainers_no_slash _ 0 i c hc
    rw [Nat.zero_add] at h1
    rw [h1, opsFor_mutateContainers_other "initContainers" "containers" i containers_no_slash _ 0
      (fun e => absurd e (by decide))]
    simp
  · have h1 := opsFor_mutateContainers "containers" containers_no_slash _ 0 i c hc
    rw [Nat.zero_add] at h1
    rw [h1, opsFor_mutateContainers_other "containers" "initContainers" i initContainers_no_slash _ 0
      (fun e => absurd e (by decide))]
    simp

/-! ## What the loop places and what it leaves behind -/

theorem searchRemaining_find (name : String) (l : List EnvVar) (pos : Nat) (v : EnvVar)
    (h : searchRemaining name 0 l = some (pos, v)) :
    l.find? (fun x => decide (x.Name = name)) = some v := by
  obtain ⟨pre, post, rfl, -, hv, hpre⟩ := searchRemaining_some _ _ _ _ _ h
  rw [List.find?_append]
  have : pre.find? (fun x => decide (x.Name = name)) = none := by
    rw [List.find?_eq_none]; intro x hx; simpa using hpre x hx
  simp [this, hv]

theorem searchRemaining_find_none (name : String) (l : List EnvVar)
    (h : searchRemaining name 0 l = none) :
    l.find? (fun x => decide (x.Name = name)) = none := by
  rw [List.find?_eq_none]; intro x hx
  simpa using (searchRemaining_none name l 0).mp h x hx

theorem placement_names : ∀ (ds rem : List EnvVar),
    (placement ds rem).1.map EnvVar.Name = ds.map EnvVar.Name := by
  intro ds
  induction ds with
  | nil => intro rem; rfl
  | cons d ds ih =>
    intro rem
    simp only [placement]
    cases h : searchRemaining d.Name 0 rem with
    | none => simp [ih]
    | some r =>
      obtain ⟨pos, v⟩ := r
      obtain ⟨pre, post, rfl, -, hv, -⟩ := searchRemaining_some _ _ _ _ _ h
      simp [ih, hv]

theorem placement_length (ds rem : List EnvVar) : (placement ds rem).1.length = ds.length := by
  have := congrArg List.length (placement_names ds rem)
  simpa using this

theorem find_append_skip (p : EnvVar → Bool) (pre post : List EnvVar) (v : EnvVar)
    (hv : p v = false) : (pre ++ v :: post).find? p = (pre ++ post).find? p := by
  simp [List.find?_append, List.find?_cons, hv]

/-- With desired names pairwise distinct, the entry placed for a desired
entry is the first entry of the working list with its name, or the desired
entry itself when there is none. -/
theorem placement_fst : ∀ (ds rem : List EnvVar),
    ds.Pairwise (fun a b => a.Name ≠ b.Name) →
    (placement ds rem).1 =
      ds.map (fun d => (rem.find? (fun x => decide (x.Name = d.Name))).getD d) := by
  intro ds
  induction ds with
  | nil => intro rem _; rfl
  | cons d ds ih =>
    intro rem hp
    rw [List.pairwise_cons] at hp
    simp only [placement]
    cases h : searchRemaining d.Name 0 rem with
    | none =>
      simp only [List.map_cons, searchRemaining_find_none _ _ h, Option.getD_none]
      rw [ih rem hp.2]
    | some r =>
      obtain ⟨pos, v⟩ := r
      simp only [List.map_cons, searchRemaining_find _ _ _ _ h, Option.getD_some]
      obtain ⟨pre, post, rfl, rfl, hv, -⟩ := searchRemaining_some _ _ _ _ _ h
      rw [Nat.zero_add, removeAt_append_cons, ih _ hp.2]
      congr 1
      apply List.map_congr_left
      intro d1 hd1
      rw [find_append_skip _ pre post v]
      simp only [decide_eq_false_iff_not, hv]
      exact hp.1 d1 hd1

/-- What the loop leaves behind is the working list with, for each desired
entry in turn, the first entry of that name erased. -/
theorem placement_snd : ∀ (ds rem : List EnvVar),
    (placement ds rem).2 =
      ds.foldl (fun r d => r.eraseP (fun x => decide (x.Name = d.Name))) rem := by
  intro ds
  induction ds with
  | nil => intro rem; rfl
  | cons d ds ih =>
    intro rem
    simp only [placement, List.foldl_cons]
    cases h : searchRemaining d.Name 0 rem with
    | none =>
      have : rem.eraseP (fun x => decide (x.Name = d.Name)) = rem := by
        apply List.eraseP_of_forall_not
        intro x hx; simpa using (searchRemaining_none d.Name rem 0).mp h x hx
      simp only [this]
      exact ih rem
    | some r =>
      obtain ⟨pos, v⟩ := r
      obtain ⟨pre, post, rfl, rfl, hv, hpre⟩ := searchRemaining_some _ _ _ _ _ h
      have : (pre ++ v :: post).eraseP (fun x => decide (x.Name = d.Name)) = pre ++ post := by
        rw [List.eraseP_append_right _ (fun x hx => by simpa using hpre x hx)]
        simp [hv]
      simp only [this, Nat.zero_add, removeAt_append_cons]
      exact ih _

theorem placement_snd_sublist : ∀ (ds rem : List EnvVar), (placement ds rem).2.Sublist rem := by
  intro ds
  induction ds with
  | nil => intro rem; exact List.Sublist.refl _
  | cons d ds ih =>
    intro rem
    simp only [placement]
    cases h : searchRemaining d.Name 0 rem with
    | none => exact ih rem
    | some r =>
      obtain ⟨pos, v⟩ := r
      obtain ⟨pre, post, rfl, rfl, -, -⟩ := searchRemaining_some _ _ _ _ _ h
      simp only [Nat.zero_add, removeAt_append_cons]
      exact (ih _).trans (List.Sublist.append_left (List.sublist_cons_self v post) pre)

/-- A filter that rejects every entry carrying a desired name sees the same
entries in what the loop leaves behind as in the working list. -/
theorem placement_snd_filter (q : EnvVar → Bool) : ∀ (ds rem : List EnvVar),
    (∀ d ∈ ds, ∀ x : EnvVar, x.Name = d.Name → q x = false) →
    (placement ds rem).2.filter q = rem.filter q := by
  intro ds
  induction ds with
  | nil => intro rem _; rfl
  | cons d ds ih =>
    intro rem hq
    simp only [placement]
    cases h : searchRemaining d.Name 0 rem with
    | none => exact ih rem (fun d1 hd1 => hq d1 (List.mem_cons_of_mem _ hd1))
    | some r =>
      obtain ⟨pos, v⟩ := r
      obtain ⟨pre, post, rfl, rfl, hv, -⟩ := searchRemaining_some _ _ _ _ _ h
      simp only [Nat.zero_add, removeAt_append_cons]
      rw [ih _ (fun d1 hd1 => hq d1 (List.mem_cons_of_mem _ hd1))]
      simp [List.filter_cons, hq d (List.mem_cons_self _ _) v hv]

theorem placement_fst_filter (q : EnvVar → Bool) (ds rem : List EnvVar)
    (hq : ∀ d ∈ ds, ∀ x : EnvVar, x.Name = d.Name → q x = false) :
    (placement ds rem).1.filter q = [] := by
  rw [List.filter_eq_nil_iff]
  intro x hx
  have hn : x.Name ∈ (placement ds rem).1.map EnvVar.Name := List.mem_map_of_mem _ hx
  rw [placement_names, List.mem_map] at hn
  obtain ⟨d, hd, hdn⟩ := hn
  simp [hq d hd x hdn.symm]

/-- The final list is a rearrangement of the working list together with one
copy of each desired entry whose name the working list lacks. -/
theorem placement_perm : ∀ (ds rem : List EnvVar),
    ds.Pairwise (fun a b => a.Name ≠ b.Name) →
    ((placement ds rem).1 ++ (placement ds rem).2).Perm
      (rem ++ ds.filter (fun d => decide (∀ v ∈ rem, v.Name ≠ d.Name))) := by
  intro ds
  induction ds with
  | nil => intro rem _; simp [placement]
  | cons d ds ih =>
    intro rem hp
    rw [List.pairwise_cons] at hp
    simp only [placement]
    cases h : searchRemaining d.Name 0 rem with
    | none =>
      have hnone := (searchRemaining_none d.Name rem 0).mp h
      have hd : decide (∀ v ∈ rem, v.Name ≠ d.Name) = true := by simpa using hnone
      simp only [List.filter_cons, hd, if_true, List.cons_append]
      exact ((ih rem hp.2).cons d).trans List.perm_middle.symm
    | some r =>
      obtain ⟨pos, v⟩ := r
      obtain ⟨pre, post, rfl, rfl, hv, -⟩ := searchRemaining_some _ _ _ _ _ h
      simp only [Nat.zero_add, removeAt_append_cons]
      have hd : decide (∀ x ∈ pre ++ v :: post, x.Name ≠ d.Name) = false := by
        simp only [decide_eq_false_iff_not]
        intro hall
        exact hall v (by simp) hv
      have hf : ds.filter (fun d1 => decide (∀ x ∈ pre ++ v :: post, x.Name ≠ d1.Name)) =
          ds.filter (fun d1 => decide (∀ x ∈ pre ++ post, x.Name ≠ d1.Name)) := by
        apply List.filter_congr
        intro d1 hd1
        have hne : v.Name ≠ d1.Name := by rw [hv]; exact hp.1 d1 hd1
        simp only [List.mem_append, List.mem_cons, decide_eq_decide]
        constructor
        · intro hall x hx
          exact hall x (by rcases hx with hx | hx; exact Or.inl hx; exact Or.inr (Or.inr hx))
        · intro hall x hx
          rcases hx with hx | rfl | hx
          · exact hall x (Or.inl hx)
          · exact hne
          · exact hall x (Or.inr hx)
      simp only [List.filter_cons, hd, Bool.false_eq_true, if_false, hf, List.cons_append]
      refine ((ih _ hp.2).cons v).trans ?_
      rw [List.append_assoc, List.append_assoc]
      exact List.perm_middle.symm

/-- When no two entries of the working list share a name, what the loop
leaves behind is the working list without the entries carrying a desired
name. -/
theorem placement_snd_nodup : ∀ (ds rem : List EnvVar),
    rem.Pairwise (fun a b => a.Name ≠ b.Name) →
    (placement ds rem).2 =
      rem.filter (fun x => decide (∀ d ∈ ds, x.Name ≠ d.Name)) := by
  intro ds
  induction ds with
  | nil => intro rem _; simp [placement]
  | cons d ds ih =>
    intro rem hp
    simp only [placement]
    cases h : searchRemaining d.Name 0 rem with
    | none =>
      have hnone := (searchRemaining_none d.Name rem 0).mp h
      simp only
      rw [ih rem hp]
      apply List.filter_congr
      intro x hx
      simp [hnone x hx]
    | some r =>
      obtain ⟨pos, v⟩ := r
      obtain ⟨pre, post, rfl, rfl, hv, hpre⟩ := searchRemaining_some _ _ _ _ _ h
      simp only [Nat.zero_add, removeAt_append_cons]
      have hp1 : (pre ++ post).Pairwise (fun a b => a.Name ≠ b.Name) :=
        hp.sublist (List.Sublist.append_left (List.sublist_cons_self v post) pre)
      rw [ih _ hp1]
      rw [List.pairwise_append] at hp
      have hpost : ∀ x ∈ post, x.Name ≠ d.Name := by
        intro x hx
        rw [← hv]
        exact fun e => (List.pairwise_cons.mp hp.2.1).1 x hx e.symm
      simp only [List.filter_append, List.filter_cons, List.mem_cons, forall_eq_or_imp, hv,
        ne_eq, not_true_eq_false, false_and, decide_False, Bool.false_eq_true, if_false]
      congr 1
      · apply List.filter_congr
        intro x hx
        simp [hpre x hx]
      · apply List.filter_congr
        intro x hx
        simp [hpost x hx]

/-! ## When the patch is empty -/

/-- The loop emits nothing exactly when the working list starts with entries
carrying the desired names, in desired order. -/
theorem injectedEnvLoop_nil_iff (field : String) (i : Nat) : ∀ (ds rem : List EnvVar)
    (envPos : Nat),
    (injectedEnvLoop field i envPos ds ([], rem)).1 = [] ↔
      (ds.map EnvVar.Name).IsPrefix (rem.map EnvVar.Name) := by
  intro ds
  induction ds with
  | nil => intro rem envPos; simp [injectedEnvLoop]
  | cons d ds ih =>
    intro rem envPos
    simp only [injectedEnvLoop]
    rw [injectedEnvLoop_patch]
    simp only [List.append_eq_nil, injectedEnvStep, List.map_cons]
    cases rem with
    | nil => simp [searchRemaining]
    | cons a rem =>
      simp only [searchRemaining, List.map_cons]
      by_cases ha : a.Name = d.Name
      · simp only [ha, if_true, Nat.add_zero, ne_eq, not_true_eq_false, if_false, true_and]
        rw [show removeAt (a :: rem) 0 = rem from by simp [removeAt], ih]
        constructor
        · intro h; exact (List.prefix_cons_inj _).mpr h
        · intro h; exact (List.prefix_cons_inj _).mp h
      · simp only [ha, if_false]
        constructor
        · intro h
          exfalso
          cases hs : searchRemaining d.Name (0 + 1) rem with
          | none => simp [hs] at h
          | some r =>
            obtain ⟨pos, v⟩ := r
            obtain ⟨pre, post, -, hq, -, -⟩ := searchRemaining_some _ _ _ _ _ hs
            have hne : envPos + pos ≠ envPos := by omega
            simp [hs, hne] at h
        · intro h
          exfalso
          have := List.cons_prefix_cons.mp h
          exact ha this.1.symm

/-! ## The final-position invariant, and one container patched inside a pod -/

theorem names_isPrefix_iff : ∀ (ds env : List EnvVar),
    (ds.map EnvVar.Name).IsPrefix (env.map EnvVar.Name) ↔
      ∀ (j : Nat) (d : EnvVar), ds[j]? = some d → ∃ w, env[j]? = some w ∧ w.Name = d.Name := by
  intro ds
  induction ds with
  | nil => intro env; simp
  | cons d ds ih =>
    intro env
    cases env with
    | nil =>
      simp only [List.map_cons, List.map_nil, List.prefix_nil, List.getElem?_nil, false_and,
        exists_false, imp_false, false_iff, not_forall, not_not, reduceCtorEq]
      exact ⟨0, d, by simp⟩
    | cons a env =>
      simp only [List.map_cons, List.cons_prefix_cons, ih env]
      constructor
      · rintro ⟨ha, h⟩ j d1 hj
        cases j with
        | zero =>
          simp only [List.getElem?_cons_zero, Option.some.injEq] at hj ⊢
          subst hj
          exact ⟨a, rfl, ha.symm⟩
        | succ j =>
          simp only [List.getElem?_cons_succ] at hj ⊢
          exact h j d1 hj
      · intro h
        refine ⟨?_, fun j d1 hj => ?_⟩
        · obtain ⟨w, hw, hn⟩ := h 0 d (by simp)
          simp only [List.getElem?_cons_zero, Option.some.injEq] at hw
          subst hw
          exact hn.symm
        · simpa using h (j + 1) d1 (by simpa using hj)

theorem containerPatch_nil_iff (field : String) (i : Nat) (c : Container) :
    containerPatch field i c = [] ↔ DesiredInFront c.Env := by
  unfold DesiredInFront
  rw [← names_isPrefix_iff, containerPatch_eq, List.append_eq_nil, injectedEnvLoop_nil_iff]
  constructor
  · exact fun h => h.2
  · intro h
    refine ⟨?_, h⟩
    have hl := h.length_le
    have : c.Env.length ≠ 0 := by
      simp only [List.length_map] at hl
      have : getEnvMutator.length = 2 := rfl
      omega
    simp [this]

theorem mutateContainers_nil_iff (field : String) : ∀ (cs : List Container) (start : Nat),
    mutateContainers getEnvMutator field start cs [] = [] ↔ ∀ c ∈ cs, DesiredInFront c.Env := by
  intro cs
  induction cs with
  | nil => intro start; simp [mutateContainers]
  | cons c cs ih =>
    intro start
    rw [mutateContainers_cons, List.append_eq_nil, containerPatch_nil_iff, ih]
    simp

theorem mutatePod_nil_iff (pod : Pod) :
    mutatePod pod = [] ↔ ∀ s ∈ containerLists pod, ∀ c ∈ s.2, DesiredInFront c.Env := by
  rw [mutatePod_eq, List.append_eq_nil, mutateContainers_nil_iff, mutateContainers_nil_iff]
  simp [containerLists]

theorem reconciledEnv_desiredInFront (env : List EnvVar) : DesiredInFront (reconciledEnv env) := by
  unfold DesiredInFront
  rw [← names_isPrefix_iff]
  unfold reconciledEnv
  rw [List.map_append, placement_names]
  exact List.prefix_append _ _

theorem applyPatch_append : ∀ (a b : Patch) (pod : Pod),
    applyPatch pod (a ++ b) = (applyPatch pod a).bind (fun p => applyPatch p b) := by
  intro a
  induction a with
  | nil => intro b pod; simp [applyPatch]
  | cons op a ih =>
    intro b pod
    simp only [List.cons_append, applyPatch]
    cases applyOp pod op with
    | none => simp
    | some p => simp [ih]

theorem updateAt_eq {α : Type} (f : α → Option α) : ∀ (l : List α) (n : Nat) (x y : α),
    l[n]? = some x → f x = some y → updateAt f n l = some (l.set n y) := by
  intro l
  induction l with
  | nil => intro n x y h; simp at h
  | cons a l ih =>
    intro n x y h hf
    cases n with
    | zero =>
      simp only [List.getElem?_cons_zero, Option.some.injEq] at h
      subst h
      simp [updateAt, hf]
    | succ n =>
      simp only [List.getElem?_cons_succ] at h
      simp [updateAt, ih n x y h hf]

/-- A patch that applies to the `env` of one init-container applies to the
pod and changes that `env` only. -/
theorem applyPatch_initContainer (i : Nat) : ∀ (ops : Patch) (pod : Pod) (c : Container)
    (env1 : List EnvVar), pod.Spec.InitContainers[i]? = some c →
    applyContainerPatch "initContainers" i c.Env ops = some env1 →
    applyPatch pod ops =
      some ⟨⟨pod.Spec.InitContainers.set i (Container.mk c.Name c.Image env1),
        pod.Spec.Containers⟩⟩ := by
  intro ops
  induction ops with
  | nil =>
    intro pod c env1 hc h
    simp only [applyContainerPatch, Option.some.injEq] at h
    subst h
    have : pod.Spec.InitContainers.set i (Container.mk c.Name c.Image c.Env) =
        pod.Spec.InitContainers := by
      apply List.ext_getElem? ; intro n
      rw [List.getElem?_set]
      split
      · rename_i hn; subst hn; simp [hc]
        rcases List.getElem?_eq_some.mp hc with ⟨hlt, -⟩; exact hlt
      · rfl
    simp [applyPatch, this]
  | cons op ops ih =>
    intro pod c env1 hc h
    simp only [applyContainerPatch] at h
    cases h1 : applyContainerOp "initContainers" i c.Env op with
    | none => simp [h1] at h
    | some e =>
      simp only [h1] at h
      unfold applyContainerOp at h1
      cases hp : parsePath op.Path with
      | none => simp [hp] at h1
      | some r =>
        obtain ⟨f, j, t⟩ := r
        simp only [hp] at h1
        by_cases hfj : f = "initContainers" ∧ j = i
        · obtain ⟨rfl, rfl⟩ := hfj
          simp only [and_self, if_true] at h1
          have hu := updateAt_eq (fun (c : Container) =>
            (applyEnvOp op t c.Env).map (fun env => Container.mk c.Name c.Image env))
            pod.Spec.InitContainers j c (Container.mk c.Name c.Image e) hc (by simp [h1])
          simp only [applyPatch, applyOp, hp, if_true, hu, Option.map_some']
          have := ih ⟨⟨pod.Spec.InitContainers.set j (Container.mk c.Name c.Image e),
            pod.Spec.Containers⟩⟩ (Container.mk c.Name c.Image e) env1 (by
              have hlt : j < pod.Spec.InitContainers.length := by
                rcases List.getElem?_eq_some.mp hc with ⟨hlt, -⟩; exact hlt
              simp [List.getElem?_set, hlt]) h
          simpa using this
        · simp [hfj] at h1

/-- A patch that applies to the `env` of one container applies to the
pod and changes that `env` only. -/
theorem applyPatch_container (i : Nat) : ∀ (ops : Patch) (pod : Pod) (c : Container)
    (env1 : List EnvVar), pod.Spec.Containers[i]? = some c →
    applyContainerPatch "containers" i c.Env ops = some env1 →
    applyPatch pod ops =
      some ⟨⟨pod.Spec.InitContainers,
        pod.Spec.Containers.set i (Container.mk c.Name c.Image env1)⟩⟩ := by
  intro ops
  induction ops with
  | nil =>
    intro pod c env1 hc h
    simp only [applyContainerPatch, Option.some.injEq] at h
    subst h
    have : pod.Spec.Containers.set i (Container.mk c.Name c.Image c.Env) =
        pod.Spec.Containers := by
      apply List.ext_getElem? ; intro n
      rw [List.getElem?_set]
      split
      · rename_i hn; subst hn; simp [hc]
        rcases List.getElem?_eq_some.mp hc with ⟨hlt, -⟩; exact hlt
      · rfl
    simp [applyPatch, this]
  | cons op ops ih =>
    intro pod c env1 hc h
    simp only [applyContainerPatch] at h
    cases h1 : applyContainerOp "containers" i c.Env op with
    | none => simp [h1] at h
    | some e =>
      simp only [h1] at h
      unfold applyContainerOp at h1
      cases hp : parsePath op.Path with
      | none => simp [hp] at h1
      | some r =>
        obtain ⟨f, j, t⟩ := r
        simp only [hp] at h1
        by_cases hfj : f = "containers" ∧ j = i
        · obtain ⟨rfl, rfl⟩ := hfj
          simp only [and_self, if_true] at h1
          have hu := updateAt_eq (fun (c : Container) =>
            (applyEnvOp op t c.Env).map (fun env => Container.mk c.Name c.Image env))
            pod.Spec.Containers j c (Container.mk c.Name c.Image e) hc (by simp [h1])
          simp only [applyPatch, applyOp, hp, if_true, hu, Option.map_some',
            show ¬ ("containers" = "initContainers") by decide, if_false]
          have := ih ⟨⟨pod.Spec.InitContainers,
            pod.Spec.Containers.set j (Container.mk c.Name c.Image e)⟩⟩ (Container.mk c.Name c.Image e) env1 (by
              have hlt : j < pod.Spec.Containers.length := by
                rcases List.getElem?_eq_some.mp hc with ⟨hlt, -⟩; exact hlt
              simp [List.getElem?_set, hlt]) h
          simpa using this
        · simp [hfj] at h1

/-! ## The patch of a pod applied to the pod -/

theorem containerPatch_apply_reconciled (field : String) (i : Nat) (c : Container)
    (hf : '/' ∉ field.data) :
    applyContainerPatch field i c.Env (containerPatch field i c) = some (reconciledEnv c.Env) :=
  containerPatch_apply field i c hf

theorem getElem?_append_length {α : Type} (pre : List α) (a : α) (rest : List α) :
    (pre ++ a :: rest)[pre.length]? = some a := by
  induction pre with
  | nil => simp
  | cons x pre ih => simpa using ih

theorem set_append_length {α : Type} (pre rest : List α) (a b : α) :
    (pre ++ a :: rest).set pre.length b = pre ++ b :: rest := by
  induction pre with
  | nil => rfl
  | cons x pre ih => simp [ih]

theorem applyPatch_initContainers : ∀ (rest pre : List Container) (pod : Pod),
    pod.Spec.InitContainers = pre ++ rest →
    applyPatch pod (mutateContainers getEnvMutator "initContainers" pre.length rest []) =
      some ⟨⟨pre ++ rest.map reconciledContainer, pod.Spec.Containers⟩⟩ := by
  intro rest
  induction rest with
  | nil =>
    intro pre pod h
    simp only [mutateContainers, applyPatch, List.map_nil, ← h]
  | cons c rest ih =>
    intro pre pod h
    rw [mutateContainers_cons, applyPatch_append,
      applyPatch_initContainer pre.length _ pod c (reconciledEnv c.Env) (by rw [h]; exact getElem?_append_length pre c rest)
        (containerPatch_apply_reconciled _ _ c initContainers_no_slash)]
    simp only [Option.bind]
    rw [h, set_append_length]
    have := ih (pre ++ [reconciledContainer c])
      ⟨⟨pre ++ reconciledContainer c :: rest, pod.Spec.Containers⟩⟩ (by simp)
    simpa [reconciledContainer] using this

theorem applyPatch_containers : ∀ (rest pre : List Container) (pod : Pod),
    pod.Spec.Containers = pre ++ rest →
    applyPatch pod (mutateContainers getEnvMutator "containers" pre.length rest []) =
      some ⟨⟨pod.Spec.InitContainers, pre ++ rest.map reconciledContainer⟩⟩ := by
  intro rest
  induction rest with
  | nil =>
    intro pre pod h
    simp only [mutateContainers, applyPatch, List.map_nil, ← h]
  | cons c rest ih =>
    intro pre pod h
    rw [mutateContainers_cons, applyPatch_append,
      applyPatch_container pre.length _ pod c (reconciledEnv c.Env) (by rw [h]; exact getElem?_append_length pre c rest)
        (containerPatch_apply_reconciled _ _ c containers_no_slash)]
    simp only [Option.bind]
    rw [h, set_append_length]
    have := ih (pre ++ [reconciledContainer c])
      ⟨⟨pod.Spec.InitContainers, pre ++ reconciledContainer c :: rest⟩⟩ (by simp)
    simpa [reconciledContainer] using this

/-- The patch of a pod applies to the pod without error and reconciles the
`env` list of each of its containers. -/
theorem applyPatch_mutatePod (pod : Pod) :
    applyPatch pod (mutatePod pod) =
      some ⟨⟨pod.Spec.InitContainers.map reconciledContainer,
        pod.Spec.Containers.map reconciledContainer⟩⟩ := by
  rw [mutatePod_eq, applyPatch_append]
  have h1 := applyPatch_initContainers pod.Spec.InitContainers [] pod rfl
  simp only [List.length_nil, List.nil_append] at h1
  rw [h1]
  simp only [Option.bind]
  have h2 := applyPatch_containers pod.Spec.Containers []
    ⟨⟨pod.Spec.InitContainers.map reconciledContainer, pod.Spec.Containers⟩⟩ rfl
  simpa using h2

/-! ## The operations of the loop, one at a time -/

theorem eachStep_mono (field : String) (i : Nat)
    (Q1 Q2 : List EnvVar → Option Operation → Operation → Patch → Prop)
    (h : ∀ st prev op post, Q1 st prev op post → Q2 st prev op post) :
    ∀ (ops : Patch) (prev : Option Operation) (doc : List EnvVar),
      EachStep field i Q1 prev doc ops → EachStep field i Q2 prev doc ops := by
  intro ops
  induction ops with
  | nil => intro prev doc _; trivial
  | cons op ops ih =>
    intro prev doc hs
    obtain ⟨hq, doc1, ha, hrest⟩ := hs
    exact ⟨h _ _ _ _ hq, doc1, ha, ih _ _ hrest⟩

theorem lastBefore_cons (prev : Option Operation) (op : Operation) (pre : Patch) :
    lastBefore prev (op :: pre) = lastBefore (some op) pre := by
  cases pre with
  | nil => rfl
  | cons a pre =>
    have : (a :: pre).getLast? = some ((a :: pre).getLast (by simp)) :=
      List.getLast?_eq_getLast _ _
    simp only [lastBefore, List.getLast?_cons_cons, this]

/-- From `EachStep` to the operations of the patch taken one at a time. -/
theorem eachStep_split (field : String) (i : Nat)
    (Q : List EnvVar → Option Operation → Operation → Patch → Prop) :
    ∀ (ops : Patch) (prev : Option Operation) (doc : List EnvVar),
      EachStep field i Q prev doc ops →
      ∀ (pre : Patch) (op : Operation) (post : Patch), ops = pre ++ op :: post →
        ∃ st, applyContainerPatch field i doc pre = some st ∧ Q st (lastBefore prev pre) op post := by
  intro ops
  induction ops with
  | nil => intro prev doc _ pre op post h; simp at h
  | cons a ops ih =>
    intro prev doc hs pre op post h
    obtain ⟨hq, doc1, ha, hrest⟩ := hs
    cases pre with
    | nil =>
      simp only [List.nil_append, List.cons.injEq] at h
      obtain ⟨rfl, rfl⟩ := h
      exact ⟨doc, rfl, hq⟩
    | cons b pre =>
      simp only [List.cons_append, List.cons.injEq] at h
      obtain ⟨rfl, rfl⟩ := h
      obtain ⟨st, hst, hQ⟩ := ih (some a) doc1 hrest pre op post rfl
      refine ⟨st, ?_, ?_⟩
      · simp only [applyContainerPatch, ha, hst]
      · rw [lastBefore_cons]; exact hQ

theorem stepSpec_shift (field : String) (i base : Nat) (d : EnvVar) (ds rem rem1 : List EnvVar)
    (hfind : ∀ d1 ∈ ds, rem1.find? (fun x => decide (x.Name = d1.Name)) =
      rem.find? (fun x => decide (x.Name = d1.Name)))
    (st : List EnvVar) (prev : Option Operation) (op : Operation) (post : Patch)
    (h : StepSpec field i (base + 1) ds rem1 st prev op post) :
    StepSpec field i base (d :: ds) rem st prev op post := by
  obtain ⟨j, d1, hj, h⟩ := h
  have e : base + 1 + j = base + (j + 1) := by omega
  have hm : d1 ∈ ds := by
    rcases List.getElem?_eq_some.mp hj with ⟨hlt, rfl⟩
    exact List.getElem_mem hlt
  rw [e, hfind d1 hm] at h
  exact ⟨j + 1, d1, by simpa using hj, h⟩

theorem getElem?_append_add {α : Type} (placed pre post : List α) (v : α) :
    (placed ++ (pre ++ v :: post))[placed.length + pre.length]? = some v := by
  rw [← List.append_assoc, ← List.length_append]
  exact getElem?_append_length _ v post

/-- Each operation the loop emits applies to the document as the earlier
ones left it and is of one of the three kinds of `StepSpec`. -/
theorem injectedEnvLoop_eachStep (field : String) (i : Nat) (hf : '/' ∉ field.data) :
    ∀ (ds placed rem : List EnvVar) (prev : Option Operation),
      ds.Pairwise (fun a b => a.Name ≠ b.Name) →
      (∀ r, prev = some r → r.Op = Kind.add) →
      EachStep field i (StepSpec field i placed.length ds rem) prev (placed ++ rem)
        (injectedEnvLoop field i placed.length ds ([], rem)).1 := by
  intro ds
  induction ds with
  | nil => intro placed rem prev _ _; simp [injectedEnvLoop, EachStep]
  | cons d ds ih =>
    intro placed rem prev hp hprev
    rw [List.pairwise_cons] at hp
    simp only [injectedEnvLoop]
    rw [injectedEnvLoop_patch]
    simp only [injectedEnvStep]
    cases h : searchRemaining d.Name 0 rem with
    | none =>
      have hfind := searchRemaining_find_none _ _ h
      have ih1 := ih (placed ++ [d]) rem
        (some (jsonpatch.Add (sprintEnvIndexPath field i placed.length) (Value.envVar d)))
        hp.2 (fun r hr => by simp only [Option.some.injEq] at hr; subst hr; rfl)
      simp only [List.length_append, List.length_singleton, List.append_assoc,
        List.singleton_append] at ih1
      simp only [List.nil_append, List.singleton_append, EachStep]
      refine ⟨⟨0, d, by simp, Or.inr (Or.inr ⟨rfl, hfind, hprev, by simp⟩)⟩, _,
        applyContainerOp_add field i _ _ _ hf (by simp), ?_⟩
      simp only [List.take_left', List.drop_left']
      exact eachStep_mono field i _ _
        (stepSpec_shift field i placed.length d ds rem rem (fun _ _ => rfl)) _ _ _ ih1
    | some r =>
      obtain ⟨pos, v⟩ := r
      have hfind := searchRemaining_find _ _ _ _ h
      obtain ⟨pre, post, rfl, rfl, hv, hpre⟩ := searchRemaining_some _ _ _ _ _ h
      simp only [Nat.zero_add, removeAt_append_cons]
      have hskip : ∀ d1 ∈ ds, (pre ++ post).find? (fun x => decide (x.Name = d1.Name)) =
          (pre ++ v :: post).find? (fun x => decide (x.Name = d1.Name)) := by
        intro d1 hd1
        rw [find_append_skip _ pre post v]
        simp only [decide_eq_false_iff_not, hv]
        exact hp.1 d1 hd1
      by_cases hz : pre.length = 0
      · have : pre = [] := List.length_eq_zero.mp hz
        subst this
        have ih1 := ih (placed ++ [v]) post prev hp.2 hprev
        simp only [List.length_append, List.length_singleton, List.append_assoc,
          List.singleton_append] at ih1
        simp only [List.length_nil, Nat.add_zero, ne_eq, not_true_eq_false, if_false,
          List.nil_append]
        exact eachStep_mono field i _ _
          (stepSpec_shift field i placed.length d ds _ post hskip) _ _ _ ih1
      · have hne : placed.length + pre.length ≠ placed.length := by omega
        have ih1 := ih (placed ++ [v]) (pre ++ post)
          (some (jsonpatch.Add (sprintEnvIndexPath field i placed.length) (Value.envVar v)))
          hp.2 (fun r hr => by simp only [Option.some.injEq] at hr; subst hr; rfl)
        simp only [List.length_append, List.length_singleton, List.append_assoc,
          List.singleton_append] at ih1
        simp only [hne, ne_eq, not_false_eq_true, if_true, List.nil_append, List.cons_append,
          EachStep]
        refine ⟨⟨0, d, by simp, Or.inl ⟨pre.length, v, hz, rfl, ?_, hfind, rfl⟩⟩, _,
          applyContainerOp_remove field i _ _ hf (by simp), ?_, _,
          applyContainerOp_add field i _ _ _ hf ?_, ?_⟩
        · exact getElem?_append_add placed pre post v
        · exact ⟨0, d, by simp, Or.inr (Or.inl ⟨v, _, rfl, hfind, rfl, rfl, by
            rw [removeAt_append_right, removeAt_append_cons]; simp⟩)⟩
        · rw [removeAt_append_right, removeAt_append_cons]; simp
        · rw [removeAt_append_right, removeAt_append_cons]
          simp only [List.take_left', List.drop_left']
          exact eachStep_mono field i _ _
            (stepSpec_shift field i placed.length d ds _ (pre ++ post) hskip) _ _ _ ih1

/-! ## The operations emitted for a container, one at a time -/

theorem getEnvMutator_pairwise : getEnvMutator.Pairwise (fun a b => a.Name ≠ b.Name) := by
  simp only [getEnvMutator, List.pairwise_cons, List.mem_singleton, forall_eq,
    List.not_mem_nil, false_implies, implies_true, List.Pairwise.nil, and_true]
  decide

theorem lastBefore_none (pre : Patch) : lastBefore none pre = pre.getLast? := by
  unfold lastBefore
  cases pre.getLast? <;> rfl

/-- Each operation emitted for a container applies to the `env` as the earlier
ones left it and is of one of the kinds of `ContainerStepSpec`. -/
theorem containerPatch_eachStep (field : String) (i : Nat) (c : Container)
    (hf : '/' ∉ field.data) :
    EachStep field i (ContainerStepSpec field i c.Env) none c.Env (containerPatch field i c) := by
  rw [containerPatch_eq]
  by_cases he : c.Env.length = 0
  · have he1 : c.Env = [] := List.length_eq_zero.mp he
    simp only [he, if_true, List.singleton_append, EachStep]
    refine ⟨Or.inl ⟨rfl, he1, rfl, he1⟩, [], applyContainerOp_add_empty field i _ hf, ?_⟩
    have h := injectedEnvLoop_eachStep field i hf getEnvMutator [] c.Env
      (some (jsonpatch.Add (sprintEnvPath field i) Value.emptyList)) getEnvMutator_pairwise
      (fun r hr => by simp only [Option.some.injEq] at hr; subst hr; rfl)
    simp only [List.length_nil, List.nil_append] at h
    rw [he1] at h ⊢
    exact eachStep_mono field i _ _ (fun _ _ _ _ hq => Or.inr hq) _ _ _ h
  · simp only [he, if_false, List.nil_append]
    have h := injectedEnvLoop_eachStep field i hf getEnvMutator [] c.Env none
      getEnvMutator_pairwise (fun r hr => by simp at hr)
    simp only [List.length_nil, List.nil_append] at h
    exact eachStep_mono field i _ _ (fun _ _ _ _ hq => Or.inr hq) _ _ _ h

/-- The operations emitted for a container, taken one at a time. -/
theorem containerPatch_split (field : String) (i : Nat) (c : Container) (hf : '/' ∉ field.data)
    (pre : Patch) (op : Operation) (post : Patch)
    (h : containerPatch field i c = pre ++ op :: post) :
    ∃ st, applyContainerPatch field i c.Env pre = some st ∧
      ContainerStepSpec field i c.Env st pre.getLast? op post := by
  have := eachStep_split field i _ _ none c.Env (containerPatch_eachStep field i c hf) pre op post h
  rwa [lastBefore_none] at this

theorem reconciledEnv_getElem? (env : List EnvVar) (j : Nat) (d : EnvVar)
    (hj : getEnvMutator[j]? = some d) :
    (reconciledEnv env)[j]? =
      some ((env.find? (fun x => decide (x.Name = d.Name))).getD d) := by
  have hlt : j < getEnvMutator.length := (List.getElem?_eq_some.mp hj).1
  unfold reconciledEnv
  rw [List.getElem?_append_left (by rw [placement_length]; exact hlt),
    placement_fst _ _ getEnvMutator_pairwise, List.getElem?_map, hj]
  rfl

/-- Every `remove` emitted for a container deletes the first entry of the
original `env` carrying some desired name, and the next operation is the
`add` that re-inserts that entry at the index of the desired entry. -/
theorem containerPatch_remove (field : String) (i : Nat) (c : Container) (hf : '/' ∉ field.data)
    (pre : Patch) (r : Operation) (post : Patch)
    (h : containerPatch field i c = pre ++ r :: post) (hr : r.Op = Kind.remove) :
    ∃ (st : List EnvVar) (j pos : Nat) (d v : EnvVar) (post1 : Patch),
      applyContainerPatch field i c.Env pre = some st ∧ getEnvMutator[j]? = some d ∧
      r = Remove (sprintEnvIndexPath field i (j + pos)) ∧ pos ≠ 0 ∧ st[j + pos]? = some v ∧
      c.Env.find? (fun x => decide (x.Name = d.Name)) = some v ∧
      post = jsonpatch.Add (sprintEnvIndexPath field i j) (Value.envVar v) :: post1 := by
  obtain ⟨st, hst, hq⟩ := containerPatch_split field i c hf pre r post h
  rcases hq with ⟨rfl, -⟩ | ⟨j, d, hj, hq⟩
  · exact absurd hr (by simp [jsonpatch.Add])
  · rcases hq with ⟨pos, v, hpos, rfl, hv, hfind, hhead⟩ | ⟨v, _, rfl, -⟩ | ⟨rfl, -⟩
    · simp only [Nat.zero_add] at hv hhead
      cases post with
      | nil => simp at hhead
      | cons a post1 =>
        simp only [List.head?_cons, Option.some.injEq] at hhead
        subst hhead
        exact ⟨st, j, pos, d, v, post1, hst, hj, by rw [Nat.zero_add], hpos, hv, hfind, rfl⟩
    · exact absurd hr (by simp [jsonpatch.Add])
    · exact absurd hr (by simp [jsonpatch.Add])

/-- Every `add` emitted for a container that does not follow a `remove` is the
`add` of the empty list or carries a desired entry whose name no entry of the
original `env` has. -/
theorem containerPatch_add (field : String) (i : Nat) (c : Container) (hf : '/' ∉ field.data)
    (pre : Patch) (a : Operation) (post : Patch)
    (h : containerPatch field i c = pre ++ a :: post) (ha : a.Op = Kind.add)
    (hprev : ∀ r, pre.getLast? = some r → r.Op = Kind.add) :
    a = jsonpatch.Add (sprintEnvPath field i) Value.emptyList ∨
      ∃ (j : Nat) (d : EnvVar), getEnvMutator[j]? = some d ∧
        c.Env.find? (fun x => decide (x.Name = d.Name)) = none ∧
        a = jsonpatch.Add (sprintEnvIndexPath field i j) (Value.envVar d) := by
  obtain ⟨st, hst, hq⟩ := containerPatch_split field i c hf pre a post h
  rcases hq with ⟨rfl, -⟩ | ⟨j, d, hj, hq⟩
  · exact Or.inl rfl
  · rcases hq with ⟨pos, v, hpos, rfl, -⟩ | ⟨v, r, rfl, -, hp, hr, -⟩ | ⟨rfl, hfind, -⟩
    · exact absurd ha (by simp [jsonpatch.Remove])
    · have := hprev r hp
      rw [hr] at this
      exact absurd this (by decide)
    · exact Or.inr ⟨j, d, hj, hfind, by rw [Nat.zero_add]⟩

theorem sprintEnvIndexPath_ne_sprintEnvPath (field : String) (i k : Nat) (hf : '/' ∉ field.data) :
    sprintEnvIndexPath field i k ≠ sprintEnvPath field i := by
  intro h
  have h1 := parsePath_sprintEnvIndexPath field i k hf
  rw [h, parsePath_sprintEnvPath field i hf] at h1
  simp at h1

/-! ## The patch before an iteration of the loop -/

theorem injectedEnvLoop_append (field : String) (i : Nat) : ∀ (a b : List EnvVar) (envPos : Nat)
    (st : Patch × List EnvVar),
    injectedEnvLoop field i envPos (a ++ b) st =
      injectedEnvLoop field i (envPos + a.length) b (injectedEnvLoop field i envPos a st) := by
  intro a
  induction a with
  | nil => intro b envPos st; simp [injectedEnvLoop]
  | cons d a ih =>
    intro b envPos st
    rw [List.cons_append]
    simp only [injectedEnvLoop, List.length_cons]
    rw [ih, show envPos + 1 + a.length = envPos + (a.length + 1) by omega]

/-- The patch before iteration `envPos` starts the patch of the container,
and the rest of the loop continues from `remainingEnvBefore`. -/
theorem patchBefore_isPrefix (field : String) (i envPos : Nat) (c : Container) :
    (patchBefore field i envPos c).IsPrefix (containerPatch field i c) := by
  unfold patchBefore containerPatch mutateContainer
  have h := injectedEnvLoop_append field i (getEnvMutator.take envPos)
    (getEnvMutator.drop envPos) 0
    (if c.Env.length = 0 then [] ++ [jsonpatch.Add (sprintEnvPath field i) Value.emptyList]
      else [], c.Env)
  rw [List.take_append_drop] at h
  simp only at h ⊢
  rw [h]
  generalize injectedEnvLoop field i 0 (List.take envPos getEnvMutator)
    (if c.Env.length = 0 then [] ++ [jsonpatch.Add (sprintEnvPath field i) Value.emptyList]
      else [], c.Env) = st
  obtain ⟨p, r⟩ := st
  rw [injectedEnvLoop_patch]
  exact List.prefix_append _ _

theorem patchBefore_apply (field : String) (i envPos : Nat) (c : Container)
    (hf : '/' ∉ field.data) :
    applyContainerPatch field i c.Env (patchBefore field i envPos c) =
      some ((placement (getEnvMutator.take envPos) c.Env).1 ++
        remainingEnvBefore field i envPos c.Env) := by
  have h := injectedEnvLoop_apply field i hf (getEnvMutator.take envPos) [] c.Env
  simp only [List.length_nil, List.nil_append] at h
  unfold remainingEnvBefore
  rw [h.2]
  unfold patchBefore mutateContainer
  by_cases he : c.Env.length = 0
  · have he1 : c.Env = [] := List.length_eq_zero.mp he
    simp only [he, if_true, List.nil_append]
    rw [injectedEnvLoop_patch]
    simp only [List.singleton_append, applyContainerPatch,
      applyContainerOp_add_empty field i _ hf]
    rw [he1] at h ⊢
    exact h.1
  · simp only [he, if_false]
    exact h.1

/-! ## The patch of a container without `env` -/

theorem containerPatch_of_nil (field : String) (i : Nat) (c : Container) (he : c.Env = []) :
    containerPatch field i c =
      [jsonpatch.Add (sprintEnvPath field i) Value.emptyList,
        jsonpatch.Add (sprintEnvIndexPath field i 0) (Value.envVar
          ⟨"DD_AGENT_HOST", "", some ⟨some ⟨"", "status.hostIP"⟩, none, none, none⟩⟩),
        jsonpatch.Add (sprintEnvIndexPath field i 1) (Value.envVar ⟨"DEV_VERSION", "dev-1", none⟩)] := by
  rw [containerPatch_eq, he]
  rfl

theorem containerPatch_bare_path (field : String) (i : Nat) (c : Container)
    (hf : '/' ∉ field.data) (op : Operation) (hop : op ∈ containerPatch field i c)
    (hpath : op.Path = sprintEnvPath field i) :
    c.Env = [] ∧ op = jsonpatch.Add (sprintEnvPath field i) Value.emptyList := by
  rw [containerPatch_eq, List.mem_append] at hop
  rcases hop with hop | hop
  · by_cases he : c.Env.length = 0
    · simp only [he, if_true, List.mem_singleton] at hop
      exact ⟨List.length_eq_zero.mp he, hop⟩
    · simp [he] at hop
  · obtain ⟨k, hk⟩ := injectedEnvLoop_paths field i _ _ _ op hop
    rw [hk] at hpath
    exact absurd hpath (sprintEnvIndexPath_ne_sprintEnvPath field i k hf)

theorem reconciledEnv_drop (env : List EnvVar) :
    (reconciledEnv env).drop getEnvMutator.length = (placement getEnvMutator env).2 := by
  unfold reconciledEnv
  rw [← placement_length getEnvMutator env]
  exact List.drop_left' rfl

/-! ## Order of the patch, applicability of its operations -/

theorem mutateContainers_flatten (field : String) : ∀ (cs : List Container) (start : Nat),
    mutateContainers getEnvMutator field start cs [] =
      ((cs.enumFrom start).map (fun p => containerPatch field p.1 p.2)).flatten := by
  intro cs
  induction cs with
  | nil => intro start; rfl
  | cons c cs ih =>
    intro start
    rw [mutateContainers_cons, ih, List.enumFrom_cons, List.map_cons, List.flatten_cons]

theorem containerPatch_env_only (field : String) (i : Nat) (c c1 : Container)
    (h : c.Env = c1.Env) : containerPatch field i c = containerPatch field i c1 := by
  rw [containerPatch_eq, containerPatch_eq, h]

theorem toDigitsCore_isDigit (fuel : Nat) : ∀ (n : Nat) (ds : List Char),
    (∀ ch ∈ ds, ch.isDigit = true) → ∀ ch ∈ Nat.toDigitsCore 10 fuel n ds, ch.isDigit = true := by
  induction fuel with
  | zero => intro n ds h; simpa [Nat.toDigitsCore] using h
  | succ fuel ih =>
    intro n ds h
    have hd : (Nat.digitChar (n % 10)).isDigit = true := by
      have hlt : n % 10 < 10 := Nat.mod_lt _ (by decide)
      generalize n % 10 = d at hlt
      interval_cases d <;> rfl
    have h1 : ∀ ch ∈ Nat.digitChar (n % 10) :: ds, ch.isDigit = true := by
      intro ch hch
      rcases List.mem_cons.mp hch with rfl | hch
      · exact hd
      · exact h ch hch
    simp only [Nat.toDigitsCore]
    split
    · exact h1
    · exact ih _ _ h1

theorem toString_isDigit (n : Nat) : ∀ ch ∈ (toString n).data, ch.isDigit = true :=
  toDigitsCore_isDigit _ _ _ (by simp)

/-- Each operation of a patch that applies as a whole applies to the list
the operations before it leave. -/
theorem applyContainerPatch_split (field : String) (i : Nat) (env final : List EnvVar)
    (pre : Patch) (op : Operation) (post : Patch)
    (h : applyContainerPatch field i env (pre ++ op :: post) = some final) :
    ∃ st st1, applyContainerPatch field i env pre = some st ∧
      applyContainerOp field i st op = some st1 := by
  rw [applyContainerPatch_append] at h
  cases hst : applyContainerPatch field i env pre with
  | none => simp [hst] at h
  | some st =>
    simp only [hst, Option.bind, applyContainerPatch] at h
    cases hop : applyContainerOp field i st op with
    | none => simp [hop] at h
    | some st1 => exact ⟨st, st1, rfl, hop⟩

/-! ## Desired entries already in front -/

theorem mem_of_mem_enumFrom {α : Type} : ∀ (l : List α) (n : Nat) (p : Nat × α),
    p ∈ l.enumFrom n → p.2 ∈ l := by
  intro l
  induction l with
  | nil => intro n p h; simp at h
  | cons a l ih =>
    intro n p h
    rw [List.enumFrom_cons] at h
    rcases List.mem_cons.mp h with rfl | h
    · exact List.mem_cons_self _ _
    · exact List.mem_cons_of_mem _ (ih _ _ h)

/-- With the desired names found in front in desired order, the loop emits
one `add` for each desired entry of an absent name and nothing else. -/
theorem injectedEnvLoop_leading (field : String) (i : Nat) : ∀ (ds lead extras : List EnvVar)
    (envPos : Nat), ds.Pairwise (fun a b => a.Name ≠ b.Name) →
    (lead.map EnvVar.Name).Sublist (ds.map EnvVar.Name) →
    (∀ x ∈ extras, ∀ d ∈ ds, x.Name ≠ d.Name) →
    (injectedEnvLoop field i envPos ds ([], lead ++ extras)).1 =
      ((ds.enumFrom envPos).filter
        (fun p => decide (∀ v ∈ lead ++ extras, v.Name ≠ p.2.Name))).map
        (fun p => jsonpatch.Add (sprintEnvIndexPath field i p.1) (Value.envVar p.2)) := by
  intro ds
  induction ds with
  | nil => intro lead extras envPos _ _ _; rfl
  | cons d ds ih =>
    intro lead extras envPos hp hsub hex
    rw [List.pairwise_cons] at hp
    have hex1 : ∀ x ∈ extras, ∀ d1 ∈ ds, x.Name ≠ d1.Name :=
      fun x hx d1 hd1 => hex x hx d1 (List.mem_cons_of_mem _ hd1)
    simp only [injectedEnvLoop]
    rw [injectedEnvLoop_patch, List.enumFrom_cons, List.filter_cons]
    -- the desired entry is absent: it is added and the working list is unchanged
    have absent : (∀ v ∈ lead ++ extras, v.Name ≠ d.Name) →
        (lead.map EnvVar.Name).Sublist (ds.map EnvVar.Name) →
        (injectedEnvStep field i envPos d ([], lead ++ extras)).1 ++
          (injectedEnvLoop field i (envPos + 1) ds
            ([], (injectedEnvStep field i envPos d ([], lead ++ extras)).2)).1 =
        List.map (fun p => jsonpatch.Add (sprintEnvIndexPath field i p.1) (Value.envVar p.2))
          (if decide (∀ v ∈ lead ++ extras, v.Name ≠ (envPos, d).2.Name) = true then
            (envPos, d) :: List.filter
              (fun p => decide (∀ v ∈ lead ++ extras, v.Name ≠ p.2.Name))
              (List.enumFrom (envPos + 1) ds)
          else List.filter (fun p => decide (∀ v ∈ lead ++ extras, v.Name ≠ p.2.Name))
            (List.enumFrom (envPos + 1) ds)) := by
      intro hnone hsub1
      have hs := (searchRemaining_none d.Name (lead ++ extras) 0).mpr hnone
      have hdec : decide (∀ v ∈ lead ++ extras, v.Name ≠ d.Name) = true := by simpa using hnone
      simp only [injectedEnvStep, hs, hdec, if_true, List.nil_append, List.map_cons,
        List.singleton_append]
      rw [ih lead extras (envPos + 1) hp.2 hsub1 hex1]
    cases lead with
    | nil =>
      refine absent ?_ (List.nil_sublist _)
      intro v hv
      exact hex v (by simpa using hv) d (List.mem_cons_self _ _)
    | cons v lead =>
      by_cases hv : v.Name = d.Name
      · -- the first entry carries the desired name: nothing is emitted for it
        have hsub1 : (lead.map EnvVar.Name).Sublist (ds.map EnvVar.Name) := by
          simp only [List.map_cons] at hsub
          rcases List.sublist_cons_iff.mp hsub with h | ⟨r, hr, h⟩
          · exfalso
            have hm : v.Name ∈ ds.map EnvVar.Name := h.subset (List.mem_cons_self _ _)
            obtain ⟨d1, hd1, hn⟩ := List.mem_map.mp hm
            exact hp.1 d1 hd1 (by rw [hn, hv])
          · simp only [List.cons.injEq] at hr
            rw [hr.2]; exact h
        have hdec : decide (∀ x ∈ v :: lead ++ extras, x.Name ≠ d.Name) = false := by
          simp only [decide_eq_false_iff_not]
          exact fun hall => hall v (List.mem_cons_self _ _) hv
        have hstep : injectedEnvStep field i envPos d ([], v :: lead ++ extras) =
            ([], lead ++ extras) := by
          simp [injectedEnvStep, searchRemaining, hv, removeAt]
        simp only [hstep, hdec, Bool.false_eq_true, if_false, List.nil_append]
        rw [ih lead extras (envPos + 1) hp.2 hsub1 hex1]
        congr 1
        apply List.filter_congr
        intro p hpm
        have hpd : p.2 ∈ ds := mem_of_mem_enumFrom ds _ p hpm
        have hne : v.Name ≠ p.2.Name := by rw [hv]; exact hp.1 p.2 hpd
        simp [hne]
      · -- the first entry carries a later desired name: the desired entry is absent
        have hsub1 : ((v :: lead).map EnvVar.Name).Sublist (ds.map EnvVar.Name) := by
          rcases List.sublist_cons_iff.mp hsub with h | ⟨r, hr, -⟩
          · exact h
          · simp only [List.map_cons, List.cons.injEq] at hr
            exact absurd hr.1 hv
        refine absent ?_ hsub1
        intro x hx
        rcases List.mem_append.mp hx with hx | hx
        · have hm : x.Name ∈ ds.map EnvVar.Name :=
            hsub1.subset (List.mem_map_of_mem _ hx)
          obtain ⟨d1, hd1, hn⟩ := List.mem_map.mp hm
          rw [← hn]
          exact fun e => hp.1 d1 hd1 e.symm
        · exact hex x hx d (List.mem_cons_self _ _)

theorem containerPatch_leading (field : String) (i : Nat) (c : Container)
    (h : LeadingInOrder c.Env) :
    containerPatch field i c =
      (if c.Env.length = 0 then [jsonpatch.Add (sprintEnvPath field i) Value.emptyList] else []) ++
        absentAdds field i c.Env := by
  obtain ⟨lead, extras, henv, hsub, hex⟩ := h
  rw [containerPatch_eq, henv,
    injectedEnvLoop_leading field i getEnvMutator lead extras 0 getEnvMutator_pairwise hsub hex]
  rfl

theorem absentAdds_op (field : String) (i : Nat) (env : List EnvVar) :
    ∀ op ∈ absentAdds field i env, op.Op = Kind.add := by
  intro op hop
  simp only [absentAdds, List.mem_map] at hop
  obtain ⟨p, -, rfl⟩ := hop
  rfl

/-! ## Tailing modes read from strings -/

theorem tailingModeFromString_none (s : String) : ∀ (l : List (file.TailingMode × String)),
    (∀ e ∈ l, e.2 ≠ s) → file.TailingModeFromString l s = (file.End, false) := by
  intro l
  induction l with
  | nil => intro _; rfl
  | cons e l ih =>
    intro h
    obtain ⟨m, mStr⟩ := e
    have h1 : mStr ≠ s := h (m, mStr) (List.mem_cons_self _ _)
    simp only [file.TailingModeFromString, h1, if_false]
    exact ih (fun e he => h e (List.mem_cons_of_mem _ he))

theorem tailingModeFromString_mem (s : String) (m : file.TailingMode) :
    ∀ (l : List (file.TailingMode × String)),
    file.TailingModeFromString l s = (m, true) → (m, s) ∈ l := by
  intro l
  induction l with
  | nil => intro h; simp [file.TailingModeFromString] at h
  | cons e l ih =>
    intro h
    obtain ⟨m1, mStr⟩ := e
    simp only [file.TailingModeFromString] at h
    split at h
    · rename_i hs
      simp only [Prod.mk.injEq, and_true] at h
      rw [h, hs]
      exact List.mem_cons_self _ _
    · exact List.mem_cons_of_mem _ (ih h)

theorem tailingModeFromString_some (s : String) (m : file.TailingMode) :
    ∀ (l : List (file.TailingMode × String)), (l.map Prod.snd).Nodup → (m, s) ∈ l →
    file.TailingModeFromString l s = (m, true) := by
  intro l
  induction l with
  | nil => intro _ h; simp at h
  | cons e l ih =>
    intro hnd hmem
    obtain ⟨m1, mStr⟩ := e
    simp only [List.map_cons, List.nodup_cons] at hnd
    simp only [file.TailingModeFromString]
    rcases List.mem_cons.mp hmem with he | hmem
    · simp only [Prod.mk.injEq] at he
      simp [he.1, he.2]
    · have hne : mStr ≠ s := by
        intro e
        exact hnd.1 (by rw [e]; exact List.mem_map_of_mem Prod.snd hmem)
      simp only [hne, if_false]
      exact ih hnd.2 hmem

theorem tailingModeFromString_order (s : String) (l : List (file.TailingMode × String))
    (hperm : l.Perm file.tailingModeToStringRepresentations) :
    file.TailingModeFromString l s =
      file.TailingModeFromString file.tailingModeToStringRepresentations s := by
  have hnd0 : (file.tailingModeToStringRepresentations.map Prod.snd).Nodup := by decide
  have hnd : (l.map Prod.snd).Nodup := ((hperm.map Prod.snd).nodup_iff).mpr hnd0
  by_cases h : ∃ m, (m, s) ∈ file.tailingModeToStringRepresentations
  · obtain ⟨m, hm⟩ := h
    rw [tailingModeFromString_some s m l hnd (hperm.mem_iff.mpr hm),
      tailingModeFromString_some s m _ hnd0 hm]
  · have hall : ∀ e ∈ file.tailingModeToStringRepresentations, e.2 ≠ s := by
      intro e he hs
      exact h ⟨e.1, by rw [← hs]; exact he⟩
    rw [tailingModeFromString_none s l (fun e he => hall e (hperm.mem_iff.mp he)),
      tailingModeFromString_none s _ hall]

/-! ## Properties of `mutatePod` -/

/-- C1, final-position invariant: for every pod and every container of its
`initContainers` and `containers` lists, the operations `mutatePod` emits for
that container, applied in order to the container's `env` list, succeed and
yield a list whose entry at each desired index carries the name of the
desired entry of that index: `DD_AGENT_HOST` at position 0 and `DEV_VERSION`
at position 1. -/
theorem mutatePod_final_position (pod : Pod) (s : String × List Container)
    (hs : s ∈ containerLists pod) (i : Nat) (c : Container) (hc : s.2[i]? = some c) :
    ∃ final, applyContainerPatch s.1 i c.Env (opsFor s.1 i (mutatePod pod)) = some final ∧
      (∀ (j : Nat) (d : EnvVar), getEnvMutator[j]? = some d →
        ∃ w, final[j]? = some w ∧ w.Name = d.Name) ∧
      final[0]?.map EnvVar.Name = some "DD_AGENT_HOST" ∧
      final[1]?.map EnvVar.Name = some "DEV_VERSION" := by
  have hf := containerLists_no_slash pod s hs
  have hinv : DesiredInFront (reconciledEnv c.Env) := reconciledEnv_desiredInFront c.Env
  refine ⟨reconciledEnv c.Env, ?_, hinv, ?_, ?_⟩
  · rw [opsFor_mutatePod pod s hs i c hc]
    exact containerPatch_apply s.1 i c hf
  · obtain ⟨w, hw, hn⟩ := hinv 0 _ rfl
    rw [hw]; exact congrArg some hn
  · obtain ⟨w, hw, hn⟩ := hinv 1 _ rfl
    rw [hw]; exact congrArg some hn

/-- Witness of C1 on the container of `samplePod`. -/
theorem mutatePod_final_position_witness :
    ∃ final, applyContainerPatch "containers" 0
        [⟨"DEV_VERSION", "user", none⟩, ⟨"EXTRA", "1", none⟩, ⟨"DD_AGENT_HOST", "10.0.0.1", none⟩]
        (opsFor "containers" 0 (mutatePod samplePod)) = some final ∧
      (∀ (j : Nat) (d : EnvVar), getEnvMutator[j]? = some d →
        ∃ w, final[j]? = some w ∧ w.Name = d.Name) ∧
      final[0]?.map EnvVar.Name = some "DD_AGENT_HOST" ∧
      final[1]?.map EnvVar.Name = some "DEV_VERSION" :=
  mutatePod_final_position samplePod ("containers", samplePod.Spec.Containers)
    (by simp [containerLists]) 0 _ rfl

/-- C2, empty patch: `mutatePod pod` has no operation at all if and only if
every container of the pod, init-containers included, already has at each
desired index an `env` entry carrying the name of the desired entry of that
index; a pod with no containers gives the empty patch, and a pod with a
container whose `env` list is empty never does. -/
theorem empty_patch_iff_final_position (pod : Pod) :
    (mutatePod pod = [] ↔
      ∀ s ∈ containerLists pod, ∀ c ∈ s.2, ∀ (j : Nat) (d : EnvVar),
        getEnvMutator[j]? = some d → ∃ w, c.Env[j]? = some w ∧ w.Name = d.Name) ∧
    (pod.Spec.InitContainers = [] ∧ pod.Spec.Containers = [] → mutatePod pod = []) ∧
    ((∃ s ∈ containerLists pod, ∃ c ∈ s.2, c.Env = []) → mutatePod pod ≠ []) := by
  refine ⟨mutatePod_nil_iff pod, ?_, ?_⟩
  · rintro ⟨h1, h2⟩
    rw [mutatePod_nil_iff]
    intro s hs c hc
    simp only [containerLists, h1, h2, List.mem_cons, List.mem_singleton, List.not_mem_nil,
      or_false] at hs
    rcases hs with rfl | rfl <;> simp at hc
  · rintro ⟨s, hs, c, hc, he⟩ hnil
    obtain ⟨w, hw, -⟩ := (mutatePod_nil_iff pod).mp hnil s hs c hc 0 _ rfl
    rw [he] at hw
    simp at hw

/-- C3, idempotence: the patch of a pod applies to the pod, operation by
operation, without error, and `mutatePod` of the pod so obtained is the empty
patch. -/
theorem mutatePod_idempotent (pod : Pod) :
    ∃ pod1, applyPatch pod (mutatePod pod) = some pod1 ∧ mutatePod pod1 = [] := by
  refine ⟨_, applyPatch_mutatePod pod, ?_⟩
  rw [mutatePod_nil_iff]
  intro s hs c hc
  simp only [containerLists, List.mem_cons, List.mem_singleton, List.not_mem_nil, or_false] at hs
  rcases hs with rfl | rfl
  · simp only [List.mem_map] at hc
    obtain ⟨c0, -, rfl⟩ := hc
    exact reconciledEnv_desiredInFront c0.Env
  · simp only [List.mem_map] at hc
    obtain ⟨c0, -, rfl⟩ := hc
    exact reconciledEnv_desiredInFront c0.Env

/-- C4, value preservation: for every container of a pod, the patch emitted
for it applies to its `env` list, and for each desired entry `d` of index
`j`: when the existing list has an entry named as `d`, the entry at position
`j` of the result is the first existing entry of that name, as the user
supplied it; when it has none, the entry at position `j` is `d`. In the
patch, the operation after a `remove` is the `add` carrying the first
existing entry of a desired name, and an `add` that does not follow a
`remove` is the `add` of the empty list or carries a desired entry whose name
no existing entry has. -/
theorem mutatePod_value_preservation (pod : Pod) (s : String × List Container)
    (hs : s ∈ containerLists pod) (i : Nat) (c : Container) (hc : s.2[i]? = some c) :
    ∃ final, applyContainerPatch s.1 i c.Env (opsFor s.1 i (mutatePod pod)) = some final ∧
      (∀ (j : Nat) (d v : EnvVar), getEnvMutator[j]? = some d →
        c.Env.find? (fun x => decide (x.Name = d.Name)) = some v → final[j]? = some v) ∧
      (∀ (j : Nat) (d : EnvVar), getEnvMutator[j]? = some d →
        c.Env.find? (fun x => decide (x.Name = d.Name)) = none → final[j]? = some d) ∧
      (∀ (pre : Patch) (r a : Operation) (post : Patch),
        opsFor s.1 i (mutatePod pod) = pre ++ r :: a :: post → r.Op = Kind.remove →
        ∃ (j : Nat) (d v : EnvVar), getEnvMutator[j]? = some d ∧
          c.Env.find? (fun x => decide (x.Name = d.Name)) = some v ∧
          a = jsonpatch.Add (sprintEnvIndexPath s.1 i j) (Value.envVar v)) ∧
      (∀ (pre : Patch) (a : Operation) (post : Patch),
        opsFor s.1 i (mutatePod pod) = pre ++ a :: post → a.Op = Kind.add →
        (∀ r, pre.getLast? = some r → r.Op = Kind.add) →
        a = jsonpatch.Add (sprintEnvPath s.1 i) Value.emptyList ∨
          ∃ (j : Nat) (d : EnvVar), getEnvMutator[j]? = some d ∧
            c.Env.find? (fun x => decide (x.Name = d.Name)) = none ∧
            a = jsonpatch.Add (sprintEnvIndexPath s.1 i j) (Value.envVar d)) := by
  have hf := containerLists_no_slash pod s hs
  rw [opsFor_mutatePod pod s hs i c hc]
  refine ⟨reconciledEnv c.Env, containerPatch_apply s.1 i c hf, ?_, ?_, ?_, ?_⟩
  · intro j d v hj hfind
    rw [reconciledEnv_getElem? c.Env j d hj, hfind]; rfl
  · intro j d hj hfind
    rw [reconciledEnv_getElem? c.Env j d hj, hfind]; rfl
  · intro pre r a post h hr
    obtain ⟨st, j, pos, d, v, post1, -, hj, -, -, -, hfind, hpost⟩ :=
      containerPatch_remove s.1 i c hf pre r (a :: post) h hr
    simp only [List.cons.injEq] at hpost
    exact ⟨j, d, v, hj, hfind, hpost.1⟩
  · intro pre a post h ha hprev
    exact containerPatch_add s.1 i c hf pre a post h ha hprev

/-- Witness of C4 on the container of `samplePod`. -/
theorem mutatePod_value_preservation_witness :
    ∃ final, applyContainerPatch "containers" 0
        [⟨"DEV_VERSION", "user", none⟩, ⟨"EXTRA", "1", none⟩, ⟨"DD_AGENT_HOST", "10.0.0.1", none⟩]
        (opsFor "containers" 0 (mutatePod samplePod)) = some final ∧
      final[0]? = some ⟨"DD_AGENT_HOST", "10.0.0.1", none⟩ ∧
      final[1]? = some ⟨"DEV_VERSION", "user", none⟩ := by
  obtain ⟨final, h, hv, -⟩ := mutatePod_value_preservation samplePod
    ("containers", samplePod.Spec.Containers) (by simp [containerLists]) 0 _ rfl
  exact ⟨final, h, hv 0 _ _ rfl (by decide), hv 1 _ _ rfl (by decide)⟩

/-- C5, no user variable lost or altered: for every container of a pod, the
patch emitted for it applies to its `env` list and the result holds, as a
multiset, exactly the original entries and one copy of each desired entry
whose name the original list lacks, so that its length is the original
length plus the number of those; every `remove` of the patch deletes, from
the list as the earlier operations left it, the first original entry
carrying some desired name, and the operation right after it is the `add`
that re-inserts this very entry. -/
theorem mutatePod_no_entry_lost (pod : Pod) (s : String × List Container)
    (hs : s ∈ containerLists pod) (i : Nat) (c : Container) (hc : s.2[i]? = some c) :
    ∃ final, applyContainerPatch s.1 i c.Env (opsFor s.1 i (mutatePod pod)) = some final ∧
      final.Perm
        (c.Env ++ getEnvMutator.filter (fun d => decide (∀ v ∈ c.Env, v.Name ≠ d.Name))) ∧
      final.length = c.Env.length +
        (getEnvMutator.filter (fun d => decide (∀ v ∈ c.Env, v.Name ≠ d.Name))).length ∧
      (∀ (pre : Patch) (r : Operation) (post : Patch),
        opsFor s.1 i (mutatePod pod) = pre ++ r :: post → r.Op = Kind.remove →
        ∃ (st : List EnvVar) (j pos : Nat) (d v : EnvVar) (post1 : Patch),
          applyContainerPatch s.1 i c.Env pre = some st ∧ getEnvMutator[j]? = some d ∧
          r = Remove (sprintEnvIndexPath s.1 i (j + pos)) ∧ st[j + pos]? = some v ∧
          c.Env.find? (fun x => decide (x.Name = d.Name)) = some v ∧
          post = jsonpatch.Add (sprintEnvIndexPath s.1 i j) (Value.envVar v) :: post1) := by
  have hf := containerLists_no_slash pod s hs
  have hperm := placement_perm getEnvMutator c.Env getEnvMutator_pairwise
  rw [opsFor_mutatePod pod s hs i c hc]
  refine ⟨reconciledEnv c.Env, containerPatch_apply s.1 i c hf, hperm, ?_, ?_⟩
  · have := hperm.length_eq
    rwa [List.length_append c.Env] at this
  · intro pre r post h hr
    obtain ⟨st, j, pos, d, v, post1, hst, hj, hrem, -, hv, hfind, hpost⟩ :=
      containerPatch_remove s.1 i c hf pre r post h hr
    exact ⟨st, j, pos, d, v, post1, hst, hj, hrem, hv, hfind, hpost⟩

/-- Witness of C5 on the container of `samplePod`. -/
theorem mutatePod_no_entry_lost_witness :
    ∃ final, applyContainerPatch "containers" 0
        [⟨"DEV_VERSION", "user", none⟩, ⟨"EXTRA", "1", none⟩, ⟨"DD_AGENT_HOST", "10.0.0.1", none⟩]
        (opsFor "containers" 0 (mutatePod samplePod)) = some final ∧ final.length = 3 := by
  obtain ⟨final, h, -, hl, -⟩ := mutatePod_no_entry_lost samplePod
    ("containers", samplePod.Spec.Containers) (by simp [containerLists]) 0 _ rfl
  exact ⟨final, h, hl⟩

/-- C6, order preservation of extras: for every container of a pod, the
patch emitted for it applies to its `env` list, and the entries whose name is
not a desired name form the same sequence in the result as in the original
list. -/
theorem mutatePod_extras_order (pod : Pod) (s : String × List Container)
    (hs : s ∈ containerLists pod) (i : Nat) (c : Container) (hc : s.2[i]? = some c) :
    ∃ final, applyContainerPatch s.1 i c.Env (opsFor s.1 i (mutatePod pod)) = some final ∧
      final.filter (fun x => decide (∀ d ∈ getEnvMutator, x.Name ≠ d.Name)) =
        c.Env.filter (fun x => decide (∀ d ∈ getEnvMutator, x.Name ≠ d.Name)) := by
  have hf := containerLists_no_slash pod s hs
  have hq : ∀ d ∈ getEnvMutator, ∀ x : EnvVar, x.Name = d.Name →
      (fun x : EnvVar => decide (∀ d ∈ getEnvMutator, x.Name ≠ d.Name)) x = false := by
    intro d hd x hx
    simp only [decide_eq_false_iff_not]
    exact fun hall => hall d hd hx
  rw [opsFor_mutatePod pod s hs i c hc]
  refine ⟨reconciledEnv c.Env, containerPatch_apply s.1 i c hf, ?_⟩
  unfold reconciledEnv
  rw [List.filter_append, placement_fst_filter _ _ _ hq, placement_snd_filter _ _ _ hq]
  rfl

/-- Witness of C6 on the container of `samplePod`. -/
theorem mutatePod_extras_order_witness :
    ∃ final, applyContainerPatch "containers" 0
        [⟨"DEV_VERSION", "user", none⟩, ⟨"EXTRA", "1", none⟩, ⟨"DD_AGENT_HOST", "10.0.0.1", none⟩]
        (opsFor "containers" 0 (mutatePod samplePod)) = some final ∧
      final.filter (fun x => decide (∀ d ∈ getEnvMutator, x.Name ≠ d.Name)) =
        [⟨"EXTRA", "1", none⟩] := by
  obtain ⟨final, h, hq⟩ := mutatePod_extras_order samplePod
    ("containers", samplePod.Spec.Containers) (by simp [containerLists]) 0 _ rfl
  exact ⟨final, h, hq.trans (by decide)⟩

/-- C7, shape of the final list: for every container of a pod in whose `env`
list no two entries share a name, the patch emitted for it applies to the
list and the result is exactly as many entries as there are desired entries,
carrying the desired names in desired order, followed by all the original
entries whose name is not a desired name, in their original order. -/
theorem mutatePod_final_shape (pod : Pod) (s : String × List Container)
    (hs : s ∈ containerLists pod) (i : Nat) (c : Container) (hc : s.2[i]? = some c)
    (hu : (c.Env.map EnvVar.Name).Nodup) :
    ∃ final placed, applyContainerPatch s.1 i c.Env (opsFor s.1 i (mutatePod pod)) = some final ∧
      final = placed ++ c.Env.filter (fun x => decide (∀ d ∈ getEnvMutator, x.Name ≠ d.Name)) ∧
      placed.map EnvVar.Name = getEnvMutator.map EnvVar.Name ∧
      placed.length = getEnvMutator.length := by
  have hf := containerLists_no_slash pod s hs
  have hp : c.Env.Pairwise (fun a b => a.Name ≠ b.Name) := List.pairwise_map.mp hu
  rw [opsFor_mutatePod pod s hs i c hc]
  refine ⟨reconciledEnv c.Env, (placement getEnvMutator c.Env).1,
    containerPatch_apply s.1 i c hf, ?_, placement_names _ _, placement_length _ _⟩
  unfold reconciledEnv
  rw [placement_snd_nodup _ _ hp]

/-- Witness of C7 on the container of `samplePod`. -/
theorem mutatePod_final_shape_witness :
    ∃ final placed, applyContainerPatch "containers" 0
        [⟨"DEV_VERSION", "user", none⟩, ⟨"EXTRA", "1", none⟩, ⟨"DD_AGENT_HOST", "10.0.0.1", none⟩]
        (opsFor "containers" 0 (mutatePod samplePod)) = some final ∧
      final = placed ++ [⟨"EXTRA", "1", none⟩] ∧
      placed.map EnvVar.Name = ["DD_AGENT_HOST", "DEV_VERSION"] := by
  obtain ⟨final, placed, h, hfin, hn, -⟩ := mutatePod_final_shape samplePod
    ("containers", samplePod.Spec.Containers) (by simp [containerLists]) 0 _ rfl (by decide)
  have hx : List.filter (fun x => decide (∀ d ∈ getEnvMutator, x.Name ≠ d.Name))
      [(⟨"DEV_VERSION", "user", none⟩ : EnvVar), ⟨"EXTRA", "1", none⟩,
        ⟨"DD_AGENT_HOST", "10.0.0.1", none⟩] = [⟨"EXTRA", "1", none⟩] := by decide
  exact ⟨final, placed, h, hfin.trans (congrArg (fun l => placed ++ l) hx), hn⟩

/-- C9 as stated fails: with `env` holding `DEV_VERSION` then `DD_AGENT_HOST`,
the second desired entry (index 1) is found at position 0 of `remainingEnv`,
and position 1 of the original list holds `DD_AGENT_HOST`, not the matched
`DEV_VERSION` entry. -/
theorem position_not_in_original :
    ¬ (∀ (env : List EnvVar) (envPos pos : Nat) (d v : EnvVar),
        getEnvMutator[envPos]? = some d →
        searchRemaining d.Name 0 (remainingEnvBefore "containers" 0 envPos env) = some (pos, v) →
        env[envPos + pos]? = some v) := by
  intro h
  have h1 := h [⟨"DEV_VERSION", "user", none⟩, ⟨"DD_AGENT_HOST", "10.0.0.1", none⟩] 1 0
    ⟨"DEV_VERSION", "dev-1", none⟩ ⟨"DEV_VERSION", "user", none⟩ (by decide) (by decide)
  revert h1
  decide

/-- C9 amended, position arithmetic: for every container of a pod and every
desired entry of index `envPos` found at position `pos` of the working list
`remainingEnv`, `envPos + pos` is the position of the matched entry in the
`env` list as the operations emitted before this iteration leave it: these
operations, which start the patch of the container, apply to the original
list, and the entry at `envPos + pos` of the result is the matched entry. -/
theorem mutatePod_position_in_document (pod : Pod) (s : String × List Container)
    (hs : s ∈ containerLists pod) (i : Nat) (c : Container) (hc : s.2[i]? = some c)
    (envPos pos : Nat) (d v : EnvVar) (hd : getEnvMutator[envPos]? = some d)
    (hfound : searchRemaining d.Name 0 (remainingEnvBefore s.1 i envPos c.Env) = some (pos, v)) :
    (patchBefore s.1 i envPos c).IsPrefix (opsFor s.1 i (mutatePod pod)) ∧
    ∃ current, applyContainerPatch s.1 i c.Env (patchBefore s.1 i envPos c) = some current ∧
      current[envPos + pos]? = some v := by
  have hf := containerLists_no_slash pod s hs
  rw [opsFor_mutatePod pod s hs i c hc]
  refine ⟨patchBefore_isPrefix s.1 i envPos c, _, patchBefore_apply s.1 i envPos c hf, ?_⟩
  obtain ⟨pre, post, hrem, rfl, -, -⟩ := searchRemaining_some _ _ _ _ _ hfound
  have hlen : (placement (getEnvMutator.take envPos) c.Env).1.length = envPos := by
    rw [placement_length, List.length_take]
    have := (List.getElem?_eq_some.mp hd).1
    omega
  rw [hrem, Nat.zero_add]
  have := getElem?_append_add (placement (getEnvMutator.take envPos) c.Env).1 pre post v
  rwa [hlen] at this

/-- Witness of the amended C9 on the container of `samplePod`, at the second
desired entry. -/
theorem mutatePod_position_in_document_witness :
    ∃ current, applyContainerPatch "containers" 0
        [⟨"DEV_VERSION", "user", none⟩, ⟨"EXTRA", "1", none⟩, ⟨"DD_AGENT_HOST", "10.0.0.1", none⟩]
        (patchBefore "containers" 0 1 ⟨"app", "nginx",
          [⟨"DEV_VERSION", "user", none⟩, ⟨"EXTRA", "1", none⟩,
            ⟨"DD_AGENT_HOST", "10.0.0.1", none⟩]⟩) = some current ∧
      current[1 + 0]? = some ⟨"DEV_VERSION", "user", none⟩ :=
  (mutatePod_position_in_document samplePod ("containers", samplePod.Spec.Containers)
    (by simp [containerLists]) 0 _ rfl 1 0 ⟨"DEV_VERSION", "dev-1", none⟩
    ⟨"DEV_VERSION", "user", none⟩ (by decide) (by decide)).2

/-- C8, missing field creation: for every container of a pod, the `add` of
the empty list at the `env` path is among the operations emitted for it
exactly when its `env` list is empty; an operation on the `env` path itself
has no operation before it; for an empty `env` the operations are the `add`
of the empty list, the `add` of the first desired entry at index 0 and the
`add` of the second at index 1, in this order; for a non-empty `env` no
operation has the `env` path itself. -/
theorem mutatePod_missing_env (pod : Pod) (s : String × List Container)
    (hs : s ∈ containerLists pod) (i : Nat) (c : Container) (hc : s.2[i]? = some c) :
    (jsonpatch.Add (sprintEnvPath s.1 i) Value.emptyList ∈ opsFor s.1 i (mutatePod pod) ↔
      c.Env = []) ∧
    (∀ (pre : Patch) (op : Operation) (post : Patch),
      opsFor s.1 i (mutatePod pod) = pre ++ op :: post → op.Path = sprintEnvPath s.1 i →
      pre = [] ∧ op = jsonpatch.Add (sprintEnvPath s.1 i) Value.emptyList) ∧
    (c.Env = [] → opsFor s.1 i (mutatePod pod) =
      [jsonpatch.Add (sprintEnvPath s.1 i) Value.emptyList,
        jsonpatch.Add (sprintEnvIndexPath s.1 i 0) (Value.envVar
          ⟨"DD_AGENT_HOST", "", some ⟨some ⟨"", "status.hostIP"⟩, none, none, none⟩⟩),
        jsonpatch.Add (sprintEnvIndexPath s.1 i 1)
          (Value.envVar ⟨"DEV_VERSION", "dev-1", none⟩)]) ∧
    (c.Env ≠ [] → ∀ op ∈ opsFor s.1 i (mutatePod pod), op.Path ≠ sprintEnvPath s.1 i) := by
  have hf := containerLists_no_slash pod s hs
  rw [opsFor_mutatePod pod s hs i c hc]
  refine ⟨⟨?_, ?_⟩, ?_, containerPatch_of_nil s.1 i c, ?_⟩
  · intro hmem
    exact (containerPatch_bare_path s.1 i c hf _ hmem rfl).1
  · intro he
    rw [containerPatch_of_nil s.1 i c he]
    exact List.mem_cons_self _ _
  · intro pre op post h hpath
    have hmem : op ∈ containerPatch s.1 i c := by rw [h]; simp
    obtain ⟨he, hop⟩ := containerPatch_bare_path s.1 i c hf op hmem hpath
    refine ⟨?_, hop⟩
    rw [containerPatch_of_nil s.1 i c he] at h
    cases pre with
    | nil => rfl
    | cons a pre =>
      exfalso
      simp only [List.cons_append, List.cons.injEq] at h
      have hmem2 : op ∈ [jsonpatch.Add (sprintEnvIndexPath s.1 i 0) (Value.envVar
          ⟨"DD_AGENT_HOST", "", some ⟨some ⟨"", "status.hostIP"⟩, none, none, none⟩⟩),
          jsonpatch.Add (sprintEnvIndexPath s.1 i 1)
            (Value.envVar ⟨"DEV_VERSION", "dev-1", none⟩)] := by rw [h.2]; simp
      simp only [List.mem_cons, List.mem_singleton, List.not_mem_nil, or_false] at hmem2
      rcases hmem2 with rfl | rfl
      · exact sprintEnvIndexPath_ne_sprintEnvPath s.1 i 0 hf hpath
      · exact sprintEnvIndexPath_ne_sprintEnvPath s.1 i 1 hf hpath
  · intro hne op hmem hpath
    exact hne (containerPatch_bare_path s.1 i c hf op hmem hpath).1

/-- Witness of C8 on the init-container of `samplePod`, whose `env` is empty. -/
theorem mutatePod_missing_env_witness :
    opsFor "initContainers" 0 (mutatePod samplePod) =
      [jsonpatch.Add (sprintEnvPath "initContainers" 0) Value.emptyList,
        jsonpatch.Add (sprintEnvIndexPath "initContainers" 0 0) (Value.envVar
          ⟨"DD_AGENT_HOST", "", some ⟨some ⟨"", "status.hostIP"⟩, none, none, none⟩⟩),
        jsonpatch.Add (sprintEnvIndexPath "initContainers" 0 1)
          (Value.envVar ⟨"DEV_VERSION", "dev-1", none⟩)] :=
  (mutatePod_missing_env samplePod ("initContainers", samplePod.Spec.InitContainers)
    (by simp [containerLists]) 0 _ rfl).2.2.1 rfl

/-- C10, first match among duplicates: for every container of a pod, the
patch emitted for it applies to its `env` list; for each desired entry of
index `j`, the leftmost original entry carrying its name ends at position
`j`; the entries from position `getEnvMutator.length` on are the original
list with, for each desired name in turn, only the first entry of that name
taken out, so that every other entry stays there in its original order; and
every `remove` of the patch deletes the leftmost original entry of a desired
name, never another one. -/
theorem mutatePod_first_match (pod : Pod) (s : String × List Container)
    (hs : s ∈ containerLists pod) (i : Nat) (c : Container) (hc : s.2[i]? = some c) :
    ∃ final, applyContainerPatch s.1 i c.Env (opsFor s.1 i (mutatePod pod)) = some final ∧
      (∀ (j : Nat) (d v : EnvVar) (pre post : List EnvVar), getEnvMutator[j]? = some d →
        c.Env = pre ++ v :: post → v.Name = d.Name → (∀ x ∈ pre, x.Name ≠ d.Name) →
        final[j]? = some v) ∧
      final.drop getEnvMutator.length =
        getEnvMutator.foldl (fun r d => r.eraseP (fun x => decide (x.Name = d.Name))) c.Env ∧
      (final.drop getEnvMutator.length).Sublist c.Env ∧
      (∀ (pre : Patch) (r : Operation) (post : Patch),
        opsFor s.1 i (mutatePod pod) = pre ++ r :: post → r.Op = Kind.remove →
        ∃ (st : List EnvVar) (j pos : Nat) (d v : EnvVar),
          applyContainerPatch s.1 i c.Env pre = some st ∧ getEnvMutator[j]? = some d ∧
          r = Remove (sprintEnvIndexPath s.1 i (j + pos)) ∧ st[j + pos]? = some v ∧
          c.Env.find? (fun x => decide (x.Name = d.Name)) = some v) := by
  have hf := containerLists_no_slash pod s hs
  rw [opsFor_mutatePod pod s hs i c hc]
  refine ⟨reconciledEnv c.Env, containerPatch_apply s.1 i c hf, ?_, ?_, ?_, ?_⟩
  · intro j d v pre post hj henv hv hpre
    have hfind : c.Env.find? (fun x => decide (x.Name = d.Name)) = some v := by
      rw [henv, List.find?_append]
      have : pre.find? (fun x => decide (x.Name = d.Name)) = none := by
        rw [List.find?_eq_none]; intro x hx; simpa using hpre x hx
      simp [this, hv]
    rw [reconciledEnv_getElem? c.Env j d hj, hfind]; rfl
  · rw [reconciledEnv_drop, placement_snd]
  · rw [reconciledEnv_drop]; exact placement_snd_sublist _ _
  · intro pre r post h hr
    obtain ⟨st, j, pos, d, v, post1, hst, hj, hrem, -, hv, hfind, -⟩ :=
      containerPatch_remove s.1 i c hf pre r post h hr
    exact ⟨st, j, pos, d, v, hst, hj, hrem, hv, hfind⟩

/-- Witness of C10 on the container of `duplicatePod`. -/
theorem mutatePod_first_match_witness :
    ∃ final, applyContainerPatch "containers" 0
        [⟨"EXTRA", "1", none⟩, ⟨"DD_AGENT_HOST", "first", none⟩,
          ⟨"DD_AGENT_HOST", "second", none⟩]
        (opsFor "containers" 0 (mutatePod duplicatePod)) = some final ∧
      final[0]? = some ⟨"DD_AGENT_HOST", "first", none⟩ ∧
      final.drop getEnvMutator.length =
        [⟨"EXTRA", "1", none⟩, ⟨"DD_AGENT_HOST", "second", none⟩] := by
  obtain ⟨final, h, hfirst, hdrop, -⟩ := mutatePod_first_match duplicatePod
    ("containers", duplicatePod.Spec.Containers) (by simp [containerLists]) 0 _ rfl
  exact ⟨final, h,
    hfirst 0 _ ⟨"DD_AGENT_HOST", "first", none⟩ [⟨"EXTRA", "1", none⟩]
      [⟨"DD_AGENT_HOST", "second", none⟩] rfl rfl rfl (by decide),
    hdrop.trans (by decide)⟩

/-- C11, path format and operation order: `mutatePod pod` is the
concatenation of the operations emitted for each init-container, in ascending
index, followed by those emitted for each container, in ascending index; the
operations of the patch addressed to a container are those emitted for it,
and each has the path `/spec/<field>/<i>/env` or `/spec/<field>/<i>/env/<k>`,
which reads back as the list, the index `i` and the index `k`; an index is
printed as a non-empty run of decimal digits that reads back as the index;
the operations emitted for a container depend on its `env` list only. -/
theorem mutatePod_paths_and_order (pod : Pod) :
    mutatePod pod =
      (pod.Spec.InitContainers.enum.map
        (fun p => containerPatch "initContainers" p.1 p.2)).flatten ++
      (pod.Spec.Containers.enum.map (fun p => containerPatch "containers" p.1 p.2)).flatten ∧
    (∀ s ∈ containerLists pod, ∀ (i : Nat) (c : Container), s.2[i]? = some c →
      opsFor s.1 i (mutatePod pod) = containerPatch s.1 i c ∧
      ∀ op ∈ containerPatch s.1 i c,
        (op.Path = "/spec/" ++ s.1 ++ "/" ++ toString i ++ "/env" ∧
          parsePath op.Path = some (s.1, i, none)) ∨
        ∃ k : Nat, op.Path = "/spec/" ++ s.1 ++ "/" ++ toString i ++ "/env/" ++ toString k ∧
          parsePath op.Path = some (s.1, i, some k)) ∧
    (∀ n : Nat, (∀ ch ∈ (toString n).data, ch.isDigit = true) ∧
      parseIndex (toString n).data = some n) ∧
    (∀ (field : String) (i : Nat) (c c1 : Container), c.Env = c1.Env →
      containerPatch field i c = containerPatch field i c1) := by
  refine ⟨?_, ?_, ?_, containerPatch_env_only⟩
  · rw [mutatePod_eq, mutateContainers_flatten, mutateContainers_flatten]
    rfl
  · intro s hs i c hc
    have hf := containerLists_no_slash pod s hs
    refine ⟨opsFor_mutatePod pod s hs i c hc, ?_⟩
    intro op hop
    rcases containerPatch_paths s.1 i c op hop with h | ⟨k, h⟩
    · exact Or.inl ⟨h, by rw [h]; exact parsePath_sprintEnvPath s.1 i hf⟩
    · exact Or.inr ⟨k, h, by rw [h]; exact parsePath_sprintEnvIndexPath s.1 i k hf⟩
  · intro n
    exact ⟨toString_isDigit n, parseIndex_toDigits n⟩

/-- C14 as stated fails: a container with an empty `env` list has its desired
names in front vacuously, yet the operations emitted for it start with the
`add` of the empty list, which is none of the `add`s of absent desired
entries; and with two leading entries of one desired name, as in
`DD_AGENT_HOST`, `DD_AGENT_HOST`, `DEV_VERSION`, a `remove` is emitted. -/
theorem no_move_pairs_fails_on_empty_env :
    ¬ (∀ (field : String) (i : Nat) (c : Container), LeadingInOrder c.Env →
        (∀ op ∈ containerPatch field i c, op.Op ≠ Kind.remove) ∧
        containerPatch field i c = absentAdds field i c.Env) ∧
    containerPatch "containers" 0 ⟨"app", "nginx", [⟨"DD_AGENT_HOST", "a", none⟩,
        ⟨"DD_AGENT_HOST", "b", none⟩, ⟨"DEV_VERSION", "c", none⟩]⟩ =
      [Remove (sprintEnvIndexPath "containers" 0 2),
        jsonpatch.Add (sprintEnvIndexPath "containers" 0 1)
          (Value.envVar ⟨"DEV_VERSION", "c", none⟩)] := by
  refine ⟨?_, by decide⟩
  intro h
  have h1 := (h "containers" 0 ⟨"app", "nginx", []⟩
    ⟨[], [], rfl, List.nil_sublist _, by simp⟩).2
  revert h1
  decide

/-- C14 amended, no unnecessary move pairs: for every container of a pod
whose `env` entries carrying desired names are its leading entries, in desired
relative order and one at most for each desired name, followed only by
entries of other names, the operations
emitted for it contain no `remove`; when the `env` list is not empty they are
exactly one `add` at its index of each desired entry whose name the list
lacks, in ascending index, and when it is empty these `add`s come after the
`add` of the empty list. -/
theorem mutatePod_no_move_pairs (pod : Pod) (s : String × List Container)
    (hs : s ∈ containerLists pod) (i : Nat) (c : Container) (hc : s.2[i]? = some c)
    (hlead : LeadingInOrder c.Env) :
    (∀ op ∈ opsFor s.1 i (mutatePod pod), op.Op ≠ Kind.remove) ∧
    (c.Env ≠ [] → opsFor s.1 i (mutatePod pod) = absentAdds s.1 i c.Env) ∧
    (c.Env = [] → opsFor s.1 i (mutatePod pod) =
      jsonpatch.Add (sprintEnvPath s.1 i) Value.emptyList :: absentAdds s.1 i c.Env) := by
  rw [opsFor_mutatePod pod s hs i c hc, containerPatch_leading s.1 i c hlead]
  refine ⟨?_, ?_, ?_⟩
  · intro op hop
    rcases List.mem_append.mp hop with hop | hop
    · by_cases he : c.Env.length = 0
      · simp only [he, if_true, List.mem_singleton] at hop
        rw [hop]; simp [jsonpatch.Add]
      · simp [he] at hop
    · rw [absentAdds_op s.1 i c.Env op hop]; decide
  · intro hne
    have : c.Env.length ≠ 0 := fun e => hne (List.length_eq_zero.mp e)
    simp [this]
  · intro he
    simp [he]

/-- Witness of the amended C14 on the container of `leadingPod`: its patch
is the `add` of `DD_AGENT_HOST` at index 0, which leaves `DD_AGENT_HOST`,
`DEV_VERSION` and the extra entry. -/
theorem mutatePod_no_move_pairs_witness :
    opsFor "containers" 0 (mutatePod leadingPod) =
      [jsonpatch.Add (sprintEnvIndexPath "containers" 0 0) (Value.envVar
        ⟨"DD_AGENT_HOST", "", some ⟨some ⟨"", "status.hostIP"⟩, none, none, none⟩⟩)] ∧
    applyContainerPatch "containers" 0
        [⟨"DEV_VERSION", "user", none⟩, ⟨"EXTRA", "1", none⟩]
        (opsFor "containers" 0 (mutatePod leadingPod)) =
      some [⟨"DD_AGENT_HOST", "", some ⟨some ⟨"", "status.hostIP"⟩, none, none, none⟩⟩,
        ⟨"DEV_VERSION", "user", none⟩, ⟨"EXTRA", "1", none⟩] :=
  ⟨((mutatePod_no_move_pairs leadingPod ("containers", leadingPod.Spec.Containers)
      (by simp [containerLists]) 0 _ rfl
      ⟨[⟨"DEV_VERSION", "user", none⟩], [⟨"EXTRA", "1", none⟩], rfl, by decide, by decide⟩).2.1
      (by decide)).trans (by decide), by decide⟩

/-- C17, applicability: for every container of a pod, each operation emitted
for it applies to the `env` list as the operations before it leave it. A
`remove` has its index strictly below the length of that list, the element at
the index is the matched entry (the first original entry of a desired name)
and the next operation is the `add` that re-inserts it; an `add` on an element
path has its index at most the length of that list. Before the iteration of
any desired index `envPos`, the operations emitted so far, which start the
patch, leave `envPos` placed entries followed by the working list
`remainingEnv`. -/
theorem mutatePod_operations_applicable (pod : Pod) (s : String × List Container)
    (hs : s ∈ containerLists pod) (i : Nat) (c : Container) (hc : s.2[i]? = some c) :
    (∀ (pre : Patch) (op : Operation) (post : Patch),
      opsFor s.1 i (mutatePod pod) = pre ++ op :: post →
      ∃ st st1, applyContainerPatch s.1 i c.Env pre = some st ∧
        applyContainerOp s.1 i st op = some st1 ∧
        (op.Op = Kind.remove →
          ∃ (k k1 : Nat) (d v : EnvVar) (post1 : Patch),
            op = Remove (sprintEnvIndexPath s.1 i k) ∧ k < st.length ∧ st[k]? = some v ∧
            d ∈ getEnvMutator ∧ c.Env.find? (fun x => decide (x.Name = d.Name)) = some v ∧
            post = jsonpatch.Add (sprintEnvIndexPath s.1 i k1) (Value.envVar v) :: post1) ∧
        (op.Op = Kind.add →
          op = jsonpatch.Add (sprintEnvPath s.1 i) Value.emptyList ∨
          ∃ (k : Nat) (x : EnvVar),
            op = jsonpatch.Add (sprintEnvIndexPath s.1 i k) (Value.envVar x) ∧ k ≤ st.length)) ∧
    (∀ envPos, envPos ≤ getEnvMutator.length →
      (patchBefore s.1 i envPos c).IsPrefix (opsFor s.1 i (mutatePod pod)) ∧
      ∃ placed, placed.length = envPos ∧
        applyContainerPatch s.1 i c.Env (patchBefore s.1 i envPos c) =
          some (placed ++ remainingEnvBefore s.1 i envPos c.Env)) := by
  have hf := containerLists_no_slash pod s hs
  rw [opsFor_mutatePod pod s hs i c hc]
  refine ⟨?_, ?_⟩
  · intro pre op post h
    have happ := containerPatch_apply s.1 i c hf
    rw [h] at happ
    obtain ⟨st, st1, hst, hop⟩ := applyContainerPatch_split _ _ _ _ pre op post happ
    obtain ⟨st2, hst2, hq⟩ := containerPatch_split s.1 i c hf pre op post h
    rw [hst] at hst2
    simp only [Option.some.injEq] at hst2
    subst hst2
    refine ⟨st, st1, hst, hop, ?_, ?_⟩
    · intro hr
      obtain ⟨st3, j, pos, d, v, post1, hst3, hj, hrem, -, hv, hfind, hpost⟩ :=
        containerPatch_remove s.1 i c hf pre op post h hr
      rw [hst] at hst3
      simp only [Option.some.injEq] at hst3
      subst hst3
      have hlt : j + pos < st.length := (List.getElem?_eq_some.mp hv).1
      have hd : d ∈ getEnvMutator := by
        rcases List.getElem?_eq_some.mp hj with ⟨hlt, rfl⟩
        exact List.getElem_mem hlt
      exact ⟨j + pos, j, d, v, post1, hrem, hlt, hv, hd, hfind, hpost⟩
    · intro ha
      rcases hq with ⟨rfl, -⟩ | ⟨j, d, -, hq⟩
      · exact Or.inl rfl
      · rcases hq with ⟨pos, v, -, rfl, -⟩ | ⟨v, r, rfl, -, -, -, hle⟩ | ⟨rfl, -, -, hle⟩
        · exact absurd ha (by simp [jsonpatch.Remove])
        · exact Or.inr ⟨j, v, by rw [Nat.zero_add], by omega⟩
        · exact Or.inr ⟨j, d, by rw [Nat.zero_add], by omega⟩
  · intro envPos hle
    refine ⟨patchBefore_isPrefix s.1 i envPos c, (placement (getEnvMutator.take envPos) c.Env).1,
      ?_, patchBefore_apply s.1 i envPos c hf⟩
    rw [placement_length, List.length_take]
    omega

/-- Witness of C17 on the container of `samplePod`: the first operation is
the `remove` at index 2, which applies to the original list. -/
theorem mutatePod_operations_applicable_witness :
    ∃ st st1, applyContainerPatch "containers" 0
        [⟨"DEV_VERSION", "user", none⟩, ⟨"EXTRA", "1", none⟩, ⟨"DD_AGENT_HOST", "10.0.0.1", none⟩]
        [] = some st ∧
      applyContainerOp "containers" 0 st (Remove (sprintEnvIndexPath "containers" 0 2)) =
        some st1 := by
  obtain ⟨st, st1, h1, h2, -⟩ := (mutatePod_operations_applicable samplePod
    ("containers", samplePod.Spec.Containers) (by simp [containerLists]) 0 _ rfl).1 []
    (Remove (sprintEnvIndexPath "containers" 0 2))
    [jsonpatch.Add (sprintEnvIndexPath "containers" 0 0)
      (Value.envVar ⟨"DD_AGENT_HOST", "10.0.0.1", none⟩)] (by decide)
  exact ⟨st, st1, h1, h2⟩

/-! ## Properties of the response assembly -/

/-- C12, response assembly: for every patch, `mutateResponse` allows the
request and embeds no error; for the nil patch the response has no patch
bytes and no patch type; for any other patch it has the JSON array of the
encoded operations, in the order of the patch, and the patch type
`JSONPatch`. -/
theorem mutateResponse_allows (encodeOperation : Operation → String) (patch : Option Patch) :
    (mutateResponse encodeOperation patch).Allowed = true ∧
    (mutateResponse encodeOperation patch).Result = none ∧
    (patch = none →
      (mutateResponse encodeOperation patch).Patch = none ∧
      (mutateResponse encodeOperation patch).PatchType = none) ∧
    (∀ ops : List Operation, patch = some ops →
      (mutateResponse encodeOperation patch).Patch =
        some ("[" ++ ",".intercalate (ops.map encodeOperation) ++ "]") ∧
      (mutateResponse encodeOperation patch).PatchType = some "JSONPatch") ∧
    (∀ pod : Pod, returnedPatch (mutatePod pod) = none ↔ mutatePod pod = []) := by
  refine ⟨?_, ?_, ?_, ?_, ?_⟩
  · cases patch <;> rfl
  · cases patch <;> rfl
  · rintro rfl; exact ⟨rfl, rfl⟩
  · rintro ops rfl; exact ⟨rfl, rfl⟩
  · intro pod
    unfold returnedPatch
    by_cases h : mutatePod pod = [] <;> simp [h]

/-- C13, non-pod pass-through: for every admission review whose request
resource is not the group "", version "v1", resource "pods", `mutatePods`
returns the response that allows the request, with no patch, no patch type
and no error, whatever the object of the request and its decoding are. -/
theorem mutatePods_other_resource (unmarshalPod : String → Except String Pod)
    (encodeOperation : Operation → String) (ar : AdmissionReview) (request : AdmissionRequest)
    (hreq : ar.Request = some request)
    (hres : request.Resource ≠ ⟨"", "v1", "pods"⟩) :
    mutatePods unmarshalPod encodeOperation ar = some ⟨"", true, none, none, none⟩ := by
  unfold mutatePods
  rw [hreq]
  simp only [hres, ne_eq, not_false_eq_true, if_true]

/-- Witness of C13 on a request for a deployment. -/
theorem mutatePods_other_resource_witness :
    mutatePods (fun _ => Except.error "not decoded") (fun _ => "")
      ⟨some ⟨"uid-1", ⟨"apps", "v1", "deployments"⟩, ⟨"raw"⟩⟩, none⟩ =
      some ⟨"", true, none, none, none⟩ :=
  mutatePods_other_resource _ _ _ ⟨"uid-1", ⟨"apps", "v1", "deployments"⟩, ⟨"raw"⟩⟩ rfl
    (by decide)

/-! ## Properties of tailing modes and positions -/

/-- C15, tailing modes and their strings: in whatever order the `range` over
the map yields its entries, `TailingModeFromString` gives the same result; on
the string of each of the four modes it gives the mode and `true`; when it
gives a mode and `true`, the string of that mode is the string it was given;
on a string that is none of the four it gives `End` and `false`; and the
string of a value that is none of the four modes is empty. -/
theorem tailingMode_string_inverse (iteration : List (file.TailingMode × String))
    (hperm : iteration.Perm file.tailingModeToStringRepresentations) :
    (∀ s, file.TailingModeFromString iteration s =
      file.TailingModeFromString file.tailingModeToStringRepresentations s) ∧
    (∀ m ∈ [file.ForceBeginning, file.ForceEnd, file.Beginning, file.End],
      file.TailingModeFromString iteration (file.TailingMode.String m) = (m, true)) ∧
    (∀ (s : String) (m : file.TailingMode),
      file.TailingModeFromString iteration s = (m, true) → file.TailingMode.String m = s) ∧
    (∀ s : String, s ≠ "forceBeginning" → s ≠ "forceEnd" → s ≠ "beginning" → s ≠ "end" →
      file.TailingModeFromString iteration s = (file.End, false)) ∧
    (∀ m : file.TailingMode, m ≠ file.ForceBeginning → m ≠ file.ForceEnd →
      m ≠ file.Beginning → m ≠ file.End → file.TailingMode.String m = "") := by
  refine ⟨fun s => tailingModeFromString_order s iteration hperm, ?_, ?_, ?_, ?_⟩
  · intro m hm
    rw [tailingModeFromString_order _ iteration hperm]
    simp only [List.mem_cons, List.mem_singleton, List.not_mem_nil, or_false] at hm
    rcases hm with rfl | rfl | rfl | rfl <;> decide
  · intro s m h
    have hmem := hperm.mem_iff.mp (tailingModeFromString_mem s m iteration h)
    simp only [file.tailingModeToStringRepresentations, List.mem_cons, Prod.mk.injEq,
      List.mem_singleton, List.not_mem_nil, or_false] at hmem
    rcases hmem with ⟨rfl, rfl⟩ | ⟨rfl, rfl⟩ | ⟨rfl, rfl⟩ | ⟨rfl, rfl⟩ <;> decide
  · intro s h1 h2 h3 h4
    apply tailingModeFromString_none
    intro e he
    have hmem := hperm.mem_iff.mp he
    simp only [file.tailingModeToStringRepresentations, List.mem_cons,
      List.mem_singleton, List.not_mem_nil, or_false] at hmem
    rcases hmem with rfl | rfl | rfl | rfl
    · exact fun e => h1 e.symm
    · exact fun e => h2 e.symm
    · exact fun e => h3 e.symm
    · exact fun e => h4 e.symm
  · intro m h1 h2 h3 h4
    simp only [file.ForceBeginning, file.ForceEnd, file.Beginning, file.End] at h1 h2 h3 h4
    have e0 : (m == 0) = false := by simpa using h1
    have e1 : (m == 1) = false := by simpa using h2
    have e2 : (m == 2) = false := by simpa using h3
    have e3 : (m == 3) = false := by simpa using h4
    simp only [file.TailingMode.String, file.tailingModeToStringRepresentations, List.lookup,
      file.ForceBeginning, file.ForceEnd, file.Beginning, file.End, e0, e1, e2, e3]

/-- Witness of C15 with the entries of the map yielded in reverse order. -/
theorem tailingMode_string_inverse_witness :
    file.TailingModeFromString file.tailingModeToStringRepresentations.reverse
      (file.TailingMode.String file.Beginning) = (file.Beginning, true) :=
  (tailingMode_string_inverse file.tailingModeToStringRepresentations.reverse
    (List.reverse_perm _)).2.1 file.Beginning (by decide)

/-- C16, decision table of `Position` without error: a forced mode gives
offset 0 from the start (`ForceBeginning`) or from the end (`ForceEnd`)
whatever the registered value; otherwise a non-empty registered value that
reads as the number `n` gives offset `n` from the start; otherwise an empty
registered value gives offset 0 from the start for `Beginning` and offset 0
from the end for `End` and for any other mode; the error is nil in each
case. -/
theorem position_decision_table (ParseInt : String → Int × Option String)
    (registry : auditor.Registry) (identifier : String) (m : file.TailingMode) :
    (m = file.ForceBeginning →
      file.Position ParseInt registry identifier m = (0, io.SeekStart, none)) ∧
    (m = file.ForceEnd →
      file.Position ParseInt registry identifier m = (0, io.SeekEnd, none)) ∧
    (m ≠ file.ForceBeginning → m ≠ file.ForceEnd → registry.GetOffset identifier ≠ "" →
      ∀ n : Int, ParseInt (registry.GetOffset identifier) = (n, none) →
        file.Position ParseInt registry identifier m = (n, io.SeekStart, none)) ∧
    (m ≠ file.ForceBeginning → m ≠ file.ForceEnd → registry.GetOffset identifier = "" →
      (m = file.Beginning →
        file.Position ParseInt registry identifier m = (0, io.SeekStart, none)) ∧
      (m ≠ file.Beginning →
        file.Position ParseInt registry identifier m = (0, io.SeekEnd, none))) := by
  refine ⟨?_, ?_, ?_, ?_⟩
  · rintro rfl
    simp [file.Position]
  · rintro rfl
    simp [file.Position, file.ForceEnd, file.ForceBeginning]
  · intro h1 h2 hv n hn
    simp [file.Position, h1, h2, hv, hn]
  · intro h1 h2 hv
    constructor
    · intro hb
      subst hb
      simp [file.Position, hv, file.ForceBeginning, file.ForceEnd, file.Beginning, file.End]
    · intro hb
      simp [file.Position, h1, h2, hv, hb]

/-- C18, `Position` on a registered value that does not read as a number: in
a mode that is not forced, a non-empty registered value on which the reading
fails gives the error of the reading with offset 0, from the end for `End`
and from the start for `Beginning` and for any other mode; and `Position`
gives an error in this case only. -/
theorem position_unparseable_offset (ParseInt : String → Int × Option String)
    (registry : auditor.Registry) (identifier : String) (m : file.TailingMode) :
    (m ≠ file.ForceBeginning → m ≠ file.ForceEnd → registry.GetOffset identifier ≠ "" →
      ∀ (n : Int) (err : String), ParseInt (registry.GetOffset identifier) = (n, some err) →
        (m = file.End →
          file.Position ParseInt registry identifier m = (0, io.SeekEnd, some err)) ∧
        (m = file.Beginning →
          file.Position ParseInt registry identifier m = (0, io.SeekStart, some err)) ∧
        (m ≠ file.End →
          file.Position ParseInt registry identifier m = (0, io.SeekStart, some err))) ∧
    ((file.Position ParseInt registry identifier m).2.2 ≠ none →
      m ≠ file.ForceBeginning ∧ m ≠ file.ForceEnd ∧ registry.GetOffset identifier ≠ "" ∧
      (ParseInt (registry.GetOffset identifier)).2 ≠ none) := by
  refine ⟨?_, ?_⟩
  · intro h1 h2 hv n err hn
    refine ⟨?_, ?_, ?_⟩
    · intro he
      subst he
      simp [file.Position, hv, hn, file.ForceBeginning, file.ForceEnd, file.Beginning, file.End]
    · intro hb
      subst hb
      simp [file.Position, hv, hn, file.ForceBeginning, file.ForceEnd, file.Beginning, file.End]
    · intro he
      by_cases hb : m = file.Beginning
      · subst hb
        simp [file.Position, hv, hn, file.ForceBeginning, file.ForceEnd, file.Beginning, file.End]
      · simp [file.Position, h1, h2, hv, hn, he, hb]
  · intro herr
    by_cases h1 : m = file.ForceBeginning
    · simp [file.Position, h1] at herr
    by_cases h2 : m = file.ForceEnd
    · subst h2
      simp [file.Position, file.ForceBeginning, file.ForceEnd, file.Beginning, file.End] at herr
    by_cases hv : registry.GetOffset identifier = ""
    · by_cases hb : m = file.Beginning
      · subst hb
        simp [file.Position, hv, file.ForceBeginning, file.ForceEnd, file.Beginning, file.End] at herr
      · simp [file.Position, h1, h2, hv, hb] at herr
    refine ⟨h1, h2, hv, ?_⟩
    intro hnone
    apply herr
    cases hp : ParseInt (registry.GetOffset identifier) with
    | mk n e =>
      rw [hp] at hnone
      simp only at hnone
      subst hnone
      simp [file.Position, h1, h2, hv, hp]

/-- Witness of C16: in mode `End` the registered value "123" gives offset 123
from the start. -/
theorem position_decision_table_witness :
    file.Position file.parseDecimalInt64 ⟨fun _ => "123"⟩ "app.log" file.End =
      (123, io.SeekStart, none) :=
  (position_decision_table file.parseDecimalInt64 ⟨fun _ => "123"⟩ "app.log" file.End).2.2.1
    (by decide) (by decide) (by decide) 123 (by decide)

/-- Witness of C18: in mode `End` the registered value "12x" gives the error
of the reading, with offset 0 from the end. -/
theorem position_unparseable_offset_witness :
    file.Position file.parseDecimalInt64 ⟨fun _ => "12x"⟩ "app.log" file.End =
      (0, io.SeekEnd, some "invalid syntax") :=
  ((position_unparseable_offset file.parseDecimalInt64 ⟨fun _ => "12x"⟩ "app.log" file.End).1
    (by decide) (by decide) (by decide) 0 "invalid syntax" (by decide)).1 rfl
